import Mathlib

/-!
# Byte-sampling engine of `PoissonSampleInterval`

A shallow embedding of `src/include/poissonsampleinterval.hpp` and a verification of the
properties its specification states about it.

Modelling decisions.

* `uint64_t` values, and `size_t` values (64 bits wide on the targets of this header), are
  natural numbers; every C++ addition that can exceed the machine word is followed by an
  explicit `% 2 ^ 64`.  The two subtractions of the source
  (`sample - _tillNextAlloc` under `sample > _tillNextAlloc`, and `_tillNextAlloc -= sample`
  under `sample <= _tillNextAlloc`) cannot wrap, so truncated subtraction is exact for them.
* The members `rd`, `gen`, `d` are a stream `draws : Nat → Nat` of the values that successive
  evaluations of `d(gen)` produce, together with the number `drawn` of values consumed so
  far.  `d(gen)` has type `uint64_t`, hence it yields `draws drawn % 2 ^ 64`.
* `void *` identities are natural numbers (addresses).
* `std::unordered_map<void *, uint64_t>` is an association list; `find`, `operator[]=` and
  `erase` are `mapFind`, `mapAssign` and `mapErase`.
* A member function `bool f(..., size_t& ret)` returns `Option Nat × PoissonSampleInterval`:
  `some ret` when the C++ function returns `true` (having written `ret`), `none` when it
  returns `false` (leaving `ret` untouched), paired with the state after the call.
* The diagnostic `printf_` calls do not affect the state nor the result and are left out;
  the one value they compute from the state, `(allocs - frees) / 1048576`, is `liveMegabytes`.
* Where a property speaks of the distribution of the draws, `d(1.0 / SAMPLE_INTERVAL)` is the
  geometric distribution with mass `geometricMass SAMPLE_INTERVAL`.
-/

/-- The width of `uint64_t` arithmetic: `2 ^ 64`. -/
def UINT64_MOD : Nat := 2 ^ 64

/-- Modelled from the spec: the macro `unlikely` is used by `increment` but defined outside
this header.  The specification lets a sampling event fire exactly when `size_bytes` exceeds
`remaining_bytes`, so the macro passes its condition through unchanged (it is a hint for
branch prediction). -/
def unlikely (c : Bool) : Bool := c

/-- Lookup `m.find(p)`: the value stored under key `p`, if there is one. -/
def mapFind : List (Nat × Nat) → Nat → Option Nat
  | [], _ => none
  | (k, v) :: m, p => if k = p then some v else mapFind m p

/-- Assignment `m[p] = v`: overwrite the value under `p`, inserting the key when absent. -/
def mapAssign : List (Nat × Nat) → Nat → Nat → List (Nat × Nat)
  | [], p, v => [(p, v)]
  | (k, w) :: m, p, v => if k = p then (k, v) :: m else (k, w) :: mapAssign m p v

/-- Removal `m.erase(p)`: drop what is stored under key `p`. -/
def mapErase : List (Nat × Nat) → Nat → List (Nat × Nat)
  | [], _ => []
  | (k, v) :: m, p => if k = p then mapErase m p else (k, v) :: mapErase m p

/-- The keys of the map, in storage order. -/
def mapKeys (m : List (Nat × Nat)) : List Nat := m.map Prod.fst

/-- The data members of `class PoissonSampleInterval`. -/
structure PoissonSampleInterval where
  /-- The counter `uint64_t allocs`. -/
  allocs : Nat
  /-- The counter `uint64_t frees`. -/
  frees : Nat
  /-- The values that `d(gen)` produces, in order. -/
  draws : Nat → Nat
  /-- How many values of `draws` have been consumed. -/
  drawn : Nat
  /-- The member `uint64_t _tillNextAlloc`. -/
  _tillNextAlloc : Nat
  /-- The member `uint64_t _countdownAlloc`. -/
  _countdownAlloc : Nat
  /-- The member `std::unordered_map<void *, uint64_t> _allocSize`. -/
  _allocSize : List (Nat × Nat)

namespace PoissonSampleInterval

/-- The private member `resetAlloc`: `_countdownAlloc = d(gen); _tillNextAlloc = _countdownAlloc;`. -/
def resetAlloc (s : PoissonSampleInterval) : PoissonSampleInterval :=
  let sample := s.draws s.drawn % UINT64_MOD
  { s with drawn := s.drawn + 1, _countdownAlloc := sample, _tillNextAlloc := sample }

/-- The constructor: both counters zero, an empty map, then `resetAlloc()`.  The argument
`SAMPLE_INTERVAL` only parameterises the distribution, that is, the stream `draws`. -/
def new (draws : Nat → Nat) : PoissonSampleInterval :=
  resetAlloc
    { allocs := 0, frees := 0, draws := draws, drawn := 0,
      _tillNextAlloc := 0, _countdownAlloc := 0, _allocSize := [] }

/-- The member `decrement(uint64_t, void * ptr, size_t& ret)`; the first argument is unnamed
and unused in the source. -/
def decrement (s : PoissonSampleInterval) (_unused : Nat) (ptr : Nat) :
    Option Nat × PoissonSampleInterval :=
  match mapFind s._allocSize ptr with
  | none => (none, s)
  | some ret =>
    (some ret,
      { s with _allocSize := mapErase s._allocSize ptr, frees := (s.frees + ret) % UINT64_MOD })

/-- The member `increment(uint64_t sample, void * ptr, size_t& ret)`. -/
def increment (s : PoissonSampleInterval) (sample : Nat) (ptr : Nat) :
    Option Nat × PoissonSampleInterval :=
  if unlikely (decide (sample > s._tillNextAlloc)) then
    let prev := s._countdownAlloc
    let diff := sample - s._tillNextAlloc
    let s1 := s.resetAlloc
    let ret := (prev + diff) % UINT64_MOD
    (some ret,
      { s1 with _allocSize := mapAssign s1._allocSize ptr ret,
                allocs := (s1.allocs + ret) % UINT64_MOD })
  else
    (none, { s with _tillNextAlloc := s._tillNextAlloc - sample })

end PoissonSampleInterval

/-- One call made by the host allocator: `alloc size identity` is `increment`
(`observe_allocation`), `free size identity` is `decrement` (`observe_deallocation`). -/
inductive Call where
  | alloc (size : Nat) (ptr : Nat)
  | free (size : Nat) (ptr : Nat)
  deriving DecidableEq

namespace PoissonSampleInterval

/-- Perform one call: its result and the state after it. -/
def step (s : PoissonSampleInterval) : Call → Option Nat × PoissonSampleInterval
  | Call.alloc size ptr => s.increment size ptr
  | Call.free size ptr => s.decrement size ptr

/-- The state after performing the calls of `t` in order. -/
def run (s : PoissonSampleInterval) : List Call → PoissonSampleInterval
  | [] => s
  | c :: t => run (s.step c).2 t

/-- The calls of `t` in order, each paired with the result it returned. -/
def outcomes (s : PoissonSampleInterval) : List Call → List (Call × Option Nat)
  | [] => []
  | c :: t => (c, (s.step c).1) :: outcomes (s.step c).2 t

/-- The calls of full observation: every allocation of the list immediately followed by
its matching deallocation, with the same size. -/
def observeFully : List (Nat × Nat) → List Call
  | [] => []
  | (size, ptr) :: rest => Call.alloc size ptr :: Call.free size ptr :: observeFully rest

/-- In the record `log`, some `alloc` call for `ptr` was sampled with weight `w`, and after it
there is neither a sampled `alloc` for `ptr` nor a `free` for `ptr`. -/
def LiveSample (log : List (Call × Option Nat)) (ptr w : Nat) : Prop :=
  ∃ front size back, log = front ++ (Call.alloc size ptr, some w) :: back ∧
    ∀ e ∈ back, (∀ sz v, e ≠ (Call.alloc sz ptr, some v)) ∧ (∀ sz, e.1 ≠ Call.free sz ptr)

/-- In the record `log`, the most recent `alloc` call for `ptr` was sampled, and no `free` for
`ptr` comes after it. -/
def LastAllocSampled (log : List (Call × Option Nat)) (ptr : Nat) : Prop :=
  ∃ front size w back, log = front ++ (Call.alloc size ptr, some w) :: back ∧
    ∀ e ∈ back, (∀ sz, e.1 ≠ Call.alloc sz ptr) ∧ (∀ sz, e.1 ≠ Call.free sz ptr)

/-- The addition to a counter that call `c` performs in state `s` stays below `2 ^ 64`:
`allocs + ret` for a sampled `alloc`, `frees + ret` for a sampled `free`. -/
def counterAddFits (s : PoissonSampleInterval) (c : Call) : Bool :=
  match c, (s.step c).1 with
  | Call.alloc _ _, some ret => decide (s.allocs + ret < UINT64_MOD)
  | Call.free _ _, some ret => decide (s.frees + ret < UINT64_MOD)
  | _, none => true

/-- No call of `t`, performed in order from `s`, overflows a counter. -/
def countersFit (s : PoissonSampleInterval) : List Call → Bool
  | [] => true
  | c :: t => counterAddFits s c && countersFit (s.step c).2 t

/-- The sum `prev + diff` that call `c` computes in state `s` when it samples stays below
`2 ^ 64`. -/
def weightFits (s : PoissonSampleInterval) : Call → Bool
  | Call.alloc size _ =>
    decide (size ≤ s._tillNextAlloc ∨
      s._countdownAlloc + (size - s._tillNextAlloc) < UINT64_MOD)
  | Call.free _ _ => true

/-- No call of `t`, performed in order from `s`, overflows 64 bits: neither the weight it
computes nor the counter it adds the weight to. -/
def noOverflow (s : PoissonSampleInterval) : List Call → Bool
  | [] => true
  | c :: t => weightFits s c && counterAddFits s c && noOverflow (s.step c).2 t

/-- The sum of the size arguments of the `alloc` calls of `t`. -/
def allocatedBytes : List Call → Nat
  | [] => 0
  | Call.alloc size _ :: t => size + allocatedBytes t
  | Call.free _ _ :: t => allocatedBytes t

/-- What one recorded call does to the number of bytes observed since the last sampling
event: an unsampled `alloc` adds its size, a sampled `alloc` starts again from zero, a `free`
changes nothing. -/
def pendingAfter (acc : Nat) : Call × Option Nat → Nat
  | (Call.alloc size _, none) => acc + size
  | (Call.alloc _ _, some _) => 0
  | (Call.free _ _, _) => acc

/-- The total size of the allocations recorded in `log` after its last sampling event (after
the construction when there is none). -/
def pendingBytes (log : List (Call × Option Nat)) : Nat := log.foldl pendingAfter 0

/-- The sum of the weights held in the map. -/
def weightSum (m : List (Nat × Nat)) : Nat := (m.map Prod.snd).sum

/-- No sampled `alloc` of `t`, performed in order from `s`, is for an identity that has an
entry in the sampled set at the time of the call. -/
def noLiveResample (s : PoissonSampleInterval) : List Call → Bool
  | [] => true
  | Call.alloc size ptr :: t =>
    (decide (size ≤ s._tillNextAlloc) || (mapFind s._allocSize ptr).isNone) &&
      noLiveResample (s.increment size ptr).2 t
  | Call.free size ptr :: t => noLiveResample (s.decrement size ptr).2 t

/-- The argument `(allocs - frees) / 1048576` of the two diagnostic `printf_` calls, with the
subtraction done in `uint64_t`. -/
def liveMegabytes (s : PoissonSampleInterval) : Nat :=
  ((s.allocs + UINT64_MOD - s.frees) % UINT64_MOD) / 1048576

/-- The probability that one evaluation of `d(gen)` yields `k` when the distribution is
constructed as `d(1.0 / SAMPLE_INTERVAL)`: the geometric distribution
`P(k) = p * (1 - p) ^ k` with success probability `p = 1 / SAMPLE_INTERVAL`, in exact
arithmetic. -/
def geometricMass (SAMPLE_INTERVAL k : Nat) : ℚ :=
  (1 / (SAMPLE_INTERVAL : ℚ)) * (1 - 1 / (SAMPLE_INTERVAL : ℚ)) ^ k

/-- The calls `observe_allocation(size, identity)` for the (size, identity) pairs of a list,
in order. -/
def observeAllocations (pairs : List (Nat × Nat)) : List Call :=
  pairs.map (fun p => Call.alloc p.1 p.2)

end PoissonSampleInterval

/-! ## Lemmas about the map model -/

theorem mapFind_mapAssign (m : List (Nat × Nat)) (p v q : Nat) :
    mapFind (mapAssign m p v) q = if p = q then some v else mapFind m q := by
  induction m with
  | nil => simp [mapAssign, mapFind]
  | cons e m ih =>
    obtain ⟨k, w⟩ := e
    by_cases hk : k = p
    · subst hk
      by_cases hq : k = q <;> simp [mapAssign, mapFind, hq]
    · by_cases hq : k = q
      · subst hq
        have hpk : ¬ p = k := fun h => hk h.symm
        simp [mapAssign, mapFind, hk, hpk]
      · simp [mapAssign, mapFind, hk, hq, ih]

theorem mapFind_mapErase (m : List (Nat × Nat)) (p q : Nat) :
    mapFind (mapErase m p) q = if p = q then none else mapFind m q := by
  induction m with
  | nil => simp [mapErase, mapFind]
  | cons e m ih =>
    obtain ⟨k, w⟩ := e
    by_cases hk : k = p
    · subst hk
      by_cases hq : k = q
      · subst hq
        simpa [mapErase] using ih
      · simpa [mapErase, mapFind, hq] using ih
    · by_cases hq : k = q
      · subst hq
        have hpk : ¬ p = k := fun h => hk h.symm
        simp [mapErase, mapFind, hk, hpk]
      · simp [mapErase, mapFind, hk, hq, ih]

theorem mapErase_eq_filter (m : List (Nat × Nat)) (p : Nat) :
    mapErase m p = m.filter (fun e => decide (e.1 ≠ p)) := by
  induction m with
  | nil => rfl
  | cons e m ih =>
    obtain ⟨k, w⟩ := e
    by_cases hk : k = p <;> simp [mapErase, hk, ih]

/-! ## Unfolding the two operations -/

namespace PoissonSampleInterval

theorem increment_of_gt (s : PoissonSampleInterval) (sample ptr : Nat)
    (h : sample > s._tillNextAlloc) :
    s.increment sample ptr =
      (some ((s._countdownAlloc + (sample - s._tillNextAlloc)) % UINT64_MOD),
        { s.resetAlloc with
          _allocSize := mapAssign s._allocSize ptr
            ((s._countdownAlloc + (sample - s._tillNextAlloc)) % UINT64_MOD),
          allocs := (s.allocs + (s._countdownAlloc + (sample - s._tillNextAlloc)) % UINT64_MOD)
            % UINT64_MOD }) := by
  simp [increment, unlikely, h, resetAlloc]

theorem increment_of_le (s : PoissonSampleInterval) (sample ptr : Nat)
    (h : sample ≤ s._tillNextAlloc) :
    s.increment sample ptr = (none, { s with _tillNextAlloc := s._tillNextAlloc - sample }) := by
  have h' : ¬ sample > s._tillNextAlloc := Nat.not_lt.mpr h
  simp [increment, unlikely, h']

theorem decrement_of_none (s : PoissonSampleInterval) (unused ptr : Nat)
    (h : mapFind s._allocSize ptr = none) : s.decrement unused ptr = (none, s) := by
  simp [decrement, h]

theorem decrement_of_some (s : PoissonSampleInterval) (unused ptr ret : Nat)
    (h : mapFind s._allocSize ptr = some ret) :
    s.decrement unused ptr =
      (some ret,
        { s with _allocSize := mapErase s._allocSize ptr,
                 frees := (s.frees + ret) % UINT64_MOD }) := by
  simp [decrement, h]

/-! ## The weight of a sampled allocation -/

/-- C1, as amended: when `size > remaining_bytes`, the weight `increment` returns is
`last_draw + (size - remaining_bytes)` reduced modulo `2 ^ 64`, with `last_draw` and
`remaining_bytes` read before the call; it is exactly that sum whenever the sum fits in
64 bits. -/
theorem weight_of_sampled_alloc (s : PoissonSampleInterval) (size identity : Nat)
    (h : size > s._tillNextAlloc) :
    (s.increment size identity).1 =
        some ((s._countdownAlloc + (size - s._tillNextAlloc)) % UINT64_MOD) ∧
      (s._countdownAlloc + (size - s._tillNextAlloc) < UINT64_MOD →
        (s.increment size identity).1 =
          some (s._countdownAlloc + (size - s._tillNextAlloc))) := by
  rw [increment_of_gt s size identity h]
  refine ⟨rfl, fun hfit => ?_⟩
  simp [Nat.mod_eq_of_lt hfit]

/-- Witness for C1: a sampler whose first draw is 100, after 50 bytes, observes 60 bytes. -/
theorem weight_of_sampled_alloc_witness :
    60 > ((new (fun _ => 100)).run [Call.alloc 50 1])._tillNextAlloc ∧
      (((new (fun _ => 100)).run [Call.alloc 50 1]).increment 60 2).1 = some 110 :=
  ⟨by decide,
    (weight_of_sampled_alloc ((new (fun _ => 100)).run [Call.alloc 50 1]) 60 2 (by decide)).2
      (by decide)⟩

/-- C1 fails as stated: after one unsampled byte on a sampler whose draws are all 1, an
allocation of `2 ^ 64 - 1` bytes has `last_draw + (size - remaining_bytes) = 2 ^ 64`, but the
weight returned is 0. -/
theorem weight_wraps_at_overflow :
    ((new (fun _ => 1)).run [Call.alloc 1 7])._tillNextAlloc = 0 ∧
      ((new (fun _ => 1)).run [Call.alloc 1 7])._countdownAlloc = 1 ∧
      2 ^ 64 - 1 > ((new (fun _ => 1)).run [Call.alloc 1 7])._tillNextAlloc ∧
      (((new (fun _ => 1)).run [Call.alloc 1 7]).increment (2 ^ 64 - 1) 8).1 = some 0 ∧
      (((new (fun _ => 1)).run [Call.alloc 1 7]).increment (2 ^ 64 - 1) 8).1 ≠
        some (((new (fun _ => 1)).run [Call.alloc 1 7])._countdownAlloc +
          (2 ^ 64 - 1 - ((new (fun _ => 1)).run [Call.alloc 1 7])._tillNextAlloc)) := by
  decide

/-- C2: `increment` reports a sampling event exactly when `size` is strictly greater than
`remaining_bytes`; an allocation of exactly `remaining_bytes` bytes is not sampled. -/
theorem samples_iff_exceeds (s : PoissonSampleInterval) (size identity : Nat) :
    ((s.increment size identity).1.isSome = true ↔ size > s._tillNextAlloc) ∧
      (s.increment s._tillNextAlloc identity).1 = none := by
  constructor
  · by_cases h : size > s._tillNextAlloc
    · simp [increment_of_gt s size identity h, h]
    · simp [increment_of_le s size identity (Nat.not_lt.mp h), h]
  · rw [increment_of_le s _ identity (Nat.le_refl _)]

/-! ## Effects of a single call -/

/-- C5, as amended: when `identity` has an entry of weight `w`, `decrement` returns `w`,
removes the entries of that identity and no other (so an immediately repeated `decrement`
reports not sampled), sets `cumulative_freed` to `(cumulative_freed + w) mod 2 ^ 64`, which is
an increase by exactly `w` whenever that sum fits in 64 bits, and leaves
`cumulative_allocated`, `remaining_bytes` and `last_draw` unchanged. -/
theorem dealloc_of_entry (s : PoissonSampleInterval) (unused again identity w : Nat)
    (h : mapFind s._allocSize identity = some w) :
    (s.decrement unused identity).1 = some w ∧
      (s.decrement unused identity).2._allocSize =
        s._allocSize.filter (fun e => decide (e.1 ≠ identity)) ∧
      mapFind (s.decrement unused identity).2._allocSize identity = none ∧
      (∀ other, other ≠ identity →
        mapFind (s.decrement unused identity).2._allocSize other =
          mapFind s._allocSize other) ∧
      ((s.decrement unused identity).2.decrement again identity).1 = none ∧
      (s.decrement unused identity).2.frees = (s.frees + w) % UINT64_MOD ∧
      (s.frees + w < UINT64_MOD → (s.decrement unused identity).2.frees = s.frees + w) ∧
      (s.decrement unused identity).2.allocs = s.allocs ∧
      (s.decrement unused identity).2._tillNextAlloc = s._tillNextAlloc ∧
      (s.decrement unused identity).2._countdownAlloc = s._countdownAlloc := by
  rw [decrement_of_some s unused identity w h]
  have hgone : mapFind (mapErase s._allocSize identity) identity = none := by
    rw [mapFind_mapErase]; simp
  refine ⟨rfl, mapErase_eq_filter _ _, hgone, ?_, ?_, rfl, ?_, rfl, rfl, rfl⟩
  · intro other hne
    have hne' : ¬ identity = other := fun e => hne e.symm
    show mapFind (mapErase s._allocSize identity) other = _
    rw [mapFind_mapErase]; simp [hne']
  · rw [decrement_of_none _ again identity hgone]
  · intro hfit
    exact Nat.mod_eq_of_lt hfit

/-- Witness for C5: the entry `(2, 110)` of a sampler whose first draw is 100. -/
theorem dealloc_of_entry_witness :
    mapFind ((new (fun _ => 100)).run [Call.alloc 50 1, Call.alloc 60 2])._allocSize 2 =
        some 110 ∧
      (((new (fun _ => 100)).run [Call.alloc 50 1, Call.alloc 60 2]).decrement 0 2).1 =
        some 110 ∧
      (((new (fun _ => 100)).run [Call.alloc 50 1, Call.alloc 60 2]).decrement 0 2).2.frees =
        110 :=
  ⟨by decide,
    (dealloc_of_entry ((new (fun _ => 100)).run [Call.alloc 50 1, Call.alloc 60 2])
      0 0 2 110 (by decide)).1,
    (dealloc_of_entry ((new (fun _ => 100)).run [Call.alloc 50 1, Call.alloc 60 2])
      0 0 2 110 (by decide)).2.2.2.2.2.2.1 (by decide)⟩

/-- C5 fails as stated: on a sampler whose draws are all 0, after an allocation of
`2 ^ 64 - 1` bytes is sampled and freed and one of 2 bytes is sampled, identity 2 has an entry
of weight 2 and `cumulative_freed` is `2 ^ 64 - 1`; freeing it leaves `cumulative_freed = 1`. -/
theorem frees_wraps_at_overflow :
    mapFind ((new (fun _ => 0)).run
        [Call.alloc (2 ^ 64 - 1) 1, Call.free 0 1, Call.alloc 2 2])._allocSize 2 = some 2 ∧
      ((new (fun _ => 0)).run
        [Call.alloc (2 ^ 64 - 1) 1, Call.free 0 1, Call.alloc 2 2]).frees = 2 ^ 64 - 1 ∧
      (((new (fun _ => 0)).run
        [Call.alloc (2 ^ 64 - 1) 1, Call.free 0 1, Call.alloc 2 2]).decrement 0 2).2.frees =
          1 ∧
      (((new (fun _ => 0)).run
        [Call.alloc (2 ^ 64 - 1) 1, Call.free 0 1, Call.alloc 2 2]).decrement 0 2).2.frees ≠
          ((new (fun _ => 0)).run
            [Call.alloc (2 ^ 64 - 1) 1, Call.free 0 1, Call.alloc 2 2]).frees + 2 := by
  decide

/-- C7, as amended: when `increment` samples with weight `w`, the sampled set afterwards
maps `identity` to `w`, the entry of every other identity is unchanged, `cumulative_allocated`
becomes `(cumulative_allocated + w) mod 2 ^ 64`, which is an increase by exactly `w` whenever
that sum fits in 64 bits, and `cumulative_freed` is unchanged. -/
theorem alloc_sampled_effect (s : PoissonSampleInterval) (size identity w : Nat)
    (h : (s.increment size identity).1 = some w) :
    mapFind (s.increment size identity).2._allocSize identity = some w ∧
      (∀ other, other ≠ identity →
        mapFind (s.increment size identity).2._allocSize other =
          mapFind s._allocSize other) ∧
      (s.increment size identity).2.allocs = (s.allocs + w) % UINT64_MOD ∧
      (s.allocs + w < UINT64_MOD → (s.increment size identity).2.allocs = s.allocs + w) ∧
      (s.increment size identity).2.frees = s.frees := by
  by_cases hgt : size > s._tillNextAlloc
  · rw [increment_of_gt s size identity hgt] at h ⊢
    have hw : (s._countdownAlloc + (size - s._tillNextAlloc)) % UINT64_MOD = w := by
      simpa using h
    rw [hw]
    refine ⟨?_, ?_, rfl, ?_, rfl⟩
    · show mapFind (mapAssign s._allocSize identity w) identity = some w
      rw [mapFind_mapAssign]; simp
    · intro other hne
      have hne' : ¬ identity = other := fun e => hne e.symm
      show mapFind (mapAssign s._allocSize identity w) other = _
      rw [mapFind_mapAssign]; simp [hne']
    · intro hfit
      exact Nat.mod_eq_of_lt hfit
  · rw [increment_of_le s size identity (Nat.not_lt.mp hgt)] at h
    simp at h

/-- Witness for C7: the sampled allocation of 60 bytes after 50 on a first draw of 100. -/
theorem alloc_sampled_effect_witness :
    (((new (fun _ => 100)).run [Call.alloc 50 1]).increment 60 2).1 = some 110 ∧
      mapFind (((new (fun _ => 100)).run [Call.alloc 50 1]).increment 60 2).2._allocSize 2 =
        some 110 ∧
      (((new (fun _ => 100)).run [Call.alloc 50 1]).increment 60 2).2.allocs = 110 :=
  ⟨by decide,
    (alloc_sampled_effect ((new (fun _ => 100)).run [Call.alloc 50 1]) 60 2 110 (by decide)).1,
    (alloc_sampled_effect ((new (fun _ => 100)).run [Call.alloc 50 1]) 60 2 110
      (by decide)).2.2.2.1 (by decide)⟩

/-- C7 fails as stated: on a sampler whose draws are all 0, after an allocation of
`2 ^ 64 - 1` bytes is sampled, `cumulative_allocated` is `2 ^ 64 - 1`; a further allocation of
2 bytes is sampled with weight 2 and leaves `cumulative_allocated = 1`. -/
theorem allocs_wraps_at_overflow :
    ((new (fun _ => 0)).run [Call.alloc (2 ^ 64 - 1) 1]).allocs = 2 ^ 64 - 1 ∧
      (((new (fun _ => 0)).run [Call.alloc (2 ^ 64 - 1) 1]).increment 2 2).1 = some 2 ∧
      (((new (fun _ => 0)).run [Call.alloc (2 ^ 64 - 1) 1]).increment 2 2).2.allocs = 1 ∧
      (((new (fun _ => 0)).run [Call.alloc (2 ^ 64 - 1) 1]).increment 2 2).2.allocs ≠
        ((new (fun _ => 0)).run [Call.alloc (2 ^ 64 - 1) 1]).allocs + 2 := by
  decide

/-- C8: when `increment` does not sample (that is, `size <= remaining_bytes`),
`remaining_bytes` afterwards is its old value minus `size`, and `last_draw`, the sampled set,
`cumulative_allocated` and `cumulative_freed` are unchanged. -/
theorem alloc_unsampled_effect (s : PoissonSampleInterval) (size identity : Nat)
    (h : size ≤ s._tillNextAlloc) :
    (s.increment size identity).1 = none ∧
      (s.increment size identity).2._tillNextAlloc = s._tillNextAlloc - size ∧
      (s.increment size identity).2._tillNextAlloc + size = s._tillNextAlloc ∧
      (s.increment size identity).2._countdownAlloc = s._countdownAlloc ∧
      (s.increment size identity).2._allocSize = s._allocSize ∧
      (s.increment size identity).2.allocs = s.allocs ∧
      (s.increment size identity).2.frees = s.frees := by
  rw [increment_of_le s size identity h]
  exact ⟨rfl, rfl, Nat.sub_add_cancel h, rfl, rfl, rfl, rfl⟩

/-- Witness for C8: 50 bytes observed by a sampler whose first draw is 100. -/
theorem alloc_unsampled_effect_witness :
    50 ≤ (new (fun _ => 100))._tillNextAlloc ∧
      ((new (fun _ => 100)).increment 50 1).1 = none ∧
      ((new (fun _ => 100)).increment 50 1).2._tillNextAlloc = 50 :=
  ⟨by decide,
    (alloc_unsampled_effect (new (fun _ => 100)) 50 1 (by decide)).1,
    (alloc_unsampled_effect (new (fun _ => 100)) 50 1 (by decide)).2.1⟩

/-- C9: `increment` consumes exactly one element `d` of the draw stream when it samples,
and afterwards `last_draw = remaining_bytes = d`; it consumes none when it does not sample;
`decrement` never consumes one; the stream itself is never altered. -/
theorem draws_consumed (s : PoissonSampleInterval) (size identity unused : Nat) :
    ((s.increment size identity).1.isSome = true →
        (s.increment size identity).2.drawn = s.drawn + 1 ∧
        (s.increment size identity).2._countdownAlloc = s.draws s.drawn % UINT64_MOD ∧
        (s.increment size identity).2._tillNextAlloc = s.draws s.drawn % UINT64_MOD) ∧
      ((s.increment size identity).1 = none →
        (s.increment size identity).2.drawn = s.drawn) ∧
      (s.decrement unused identity).2.drawn = s.drawn ∧
      (s.increment size identity).2.draws = s.draws ∧
      (s.decrement unused identity).2.draws = s.draws := by
  have hdec : (s.decrement unused identity).2.drawn = s.drawn ∧
      (s.decrement unused identity).2.draws = s.draws := by
    cases hfind : mapFind s._allocSize identity with
    | none => rw [decrement_of_none s unused identity hfind]; exact ⟨rfl, rfl⟩
    | some ret => rw [decrement_of_some s unused identity ret hfind]; exact ⟨rfl, rfl⟩
  by_cases hgt : size > s._tillNextAlloc
  · rw [increment_of_gt s size identity hgt]
    refine ⟨fun _ => ⟨rfl, rfl, rfl⟩, fun hnone => ?_, hdec.1, rfl, hdec.2⟩
    simp at hnone
  · rw [increment_of_le s size identity (Nat.not_lt.mp hgt)]
    refine ⟨fun hsome => ?_, fun _ => rfl, hdec.1, rfl, hdec.2⟩
    simp at hsome

/-- Witness for C9: on the stream 100, 7, 7, ... a sampled allocation consumes the second
element, and an unsampled one consumes nothing. -/
theorem draws_consumed_witness :
    (((new (fun n => if n = 0 then 100 else 7)).increment 101 1).2.drawn = 2 ∧
        ((new (fun n => if n = 0 then 100 else 7)).increment 101 1).2._countdownAlloc = 7 ∧
        ((new (fun n => if n = 0 then 100 else 7)).increment 101 1).2._tillNextAlloc = 7) ∧
      ((new (fun n => if n = 0 then 100 else 7)).increment 100 1).2.drawn = 1 :=
  ⟨(draws_consumed (new (fun n => if n = 0 then 100 else 7)) 101 1 0).1 (by decide),
    (draws_consumed (new (fun n => if n = 0 then 100 else 7)) 100 1 0).2.1 (by decide)⟩

/-! ## Sequences of calls -/

theorem run_append (s : PoissonSampleInterval) (t u : List Call) :
    s.run (t ++ u) = (s.run t).run u := by
  induction t generalizing s with
  | nil => rfl
  | cons c t ih => exact ih (s.step c).2

theorem outcomes_append (s : PoissonSampleInterval) (t u : List Call) :
    s.outcomes (t ++ u) = s.outcomes t ++ (s.run t).outcomes u := by
  induction t generalizing s with
  | nil => rfl
  | cons c t ih =>
    show (c, (s.step c).1) :: outcomes (s.step c).2 (t ++ u) = _
    rw [ih (s.step c).2]
    rfl

/-- One allocation immediately followed by its deallocation keeps the counters equal and the
sampled set empty. -/
theorem alloc_free_balanced (s : PoissonSampleInterval) (size unused ptr : Nat)
    (hbal : s.allocs = s.frees) (hempty : s._allocSize = []) :
    ((s.increment size ptr).2.decrement unused ptr).2.allocs =
        ((s.increment size ptr).2.decrement unused ptr).2.frees ∧
      ((s.increment size ptr).2.decrement unused ptr).2._allocSize = [] := by
  by_cases hgt : size > s._tillNextAlloc
  · rw [increment_of_gt s size ptr hgt, hempty]
    have hfind : mapFind (mapAssign [] ptr
        ((s._countdownAlloc + (size - s._tillNextAlloc)) % UINT64_MOD)) ptr =
        some ((s._countdownAlloc + (size - s._tillNextAlloc)) % UINT64_MOD) := by
      simp [mapAssign, mapFind]
    rw [decrement_of_some _ unused ptr _ hfind]
    refine ⟨?_, ?_⟩
    · show (s.allocs + _) % UINT64_MOD = (s.frees + _) % UINT64_MOD
      rw [hbal]
    · show mapErase (mapAssign [] ptr _) ptr = []
      simp [mapAssign, mapErase]
  · rw [increment_of_le s size ptr (Nat.not_lt.mp hgt)]
    have hfind : mapFind s._allocSize ptr = none := by rw [hempty]; rfl
    rw [decrement_of_none { s with _tillNextAlloc := s._tillNextAlloc - size } unused ptr hfind]
    exact ⟨hbal, hempty⟩

theorem observeFully_balanced (pairs : List (Nat × Nat)) (s : PoissonSampleInterval)
    (hbal : s.allocs = s.frees) (hempty : s._allocSize = []) :
    (s.run (observeFully pairs)).allocs = (s.run (observeFully pairs)).frees := by
  induction pairs generalizing s with
  | nil => exact hbal
  | cons p pairs ih =>
    obtain ⟨size, ptr⟩ := p
    have hstep := alloc_free_balanced s size size ptr hbal hempty
    exact ih _ hstep.1 hstep.2

/-- C3, conservation under full observation: starting from a freshly constructed sampler,
after any list of allocations each immediately followed by its matching deallocation,
`cumulative_allocated == cumulative_freed`, whatever the draws. -/
theorem conservation (draws : Nat → Nat) (pairs : List (Nat × Nat)) :
    ((new draws).run (observeFully pairs)).allocs =
      ((new draws).run (observeFully pairs)).frees :=
  observeFully_balanced pairs (new draws) rfl rfl

/-! ## The entries of the sampled set -/

theorem mem_mapKeys_iff (m : List (Nat × Nat)) (p : Nat) :
    p ∈ mapKeys m ↔ ∃ v, mapFind m p = some v := by
  induction m with
  | nil => simp [mapKeys, mapFind]
  | cons e m ih =>
    obtain ⟨k, w⟩ := e
    have hkeys : mapKeys ((k, w) :: m) = k :: mapKeys m := rfl
    rw [hkeys, List.mem_cons, ih]
    by_cases hk : k = p
    · subst hk
      simp [mapFind]
    · have hpk : ¬ p = k := fun h => hk h.symm
      simp [mapFind, hk, hpk]

theorem nodup_mapKeys_mapAssign (m : List (Nat × Nat)) (p v : Nat)
    (h : (mapKeys m).Nodup) : (mapKeys (mapAssign m p v)).Nodup := by
  induction m with
  | nil => simp [mapAssign, mapKeys]
  | cons e m ih =>
    obtain ⟨k, w⟩ := e
    have hkeys : mapKeys ((k, w) :: m) = k :: mapKeys m := rfl
    rw [hkeys, List.nodup_cons] at h
    by_cases hk : k = p
    · have : mapAssign ((k, w) :: m) p v = (k, v) :: m := by simp [mapAssign, hk]
      rw [this]
      show (k :: mapKeys m).Nodup
      exact List.nodup_cons.mpr h
    · have : mapAssign ((k, w) :: m) p v = (k, w) :: mapAssign m p v := by
        simp [mapAssign, hk]
      rw [this]
      show (k :: mapKeys (mapAssign m p v)).Nodup
      refine List.nodup_cons.mpr ⟨?_, ih h.2⟩
      intro hmem
      obtain ⟨x, hx⟩ := (mem_mapKeys_iff _ _).mp hmem
      rw [mapFind_mapAssign] at hx
      have hpk : ¬ p = k := fun e => hk e.symm
      rw [if_neg hpk] at hx
      exact h.1 ((mem_mapKeys_iff _ _).mpr ⟨x, hx⟩)

theorem nodup_mapKeys_mapErase (m : List (Nat × Nat)) (p : Nat)
    (h : (mapKeys m).Nodup) : (mapKeys (mapErase m p)).Nodup := by
  rw [mapErase_eq_filter]
  exact h.sublist ((List.filter_sublist m).map Prod.fst)

theorem nodup_step (s : PoissonSampleInterval) (c : Call)
    (h : (mapKeys s._allocSize).Nodup) : (mapKeys (s.step c).2._allocSize).Nodup := by
  cases c with
  | alloc size ptr =>
    show (mapKeys (s.increment size ptr).2._allocSize).Nodup
    by_cases hgt : size > s._tillNextAlloc
    · rw [increment_of_gt s size ptr hgt]
      exact nodup_mapKeys_mapAssign _ _ _ h
    · rw [increment_of_le s size ptr (Nat.not_lt.mp hgt)]
      exact h
  | free size ptr =>
    show (mapKeys (s.decrement size ptr).2._allocSize).Nodup
    cases hfind : mapFind s._allocSize ptr with
    | none => rw [decrement_of_none s size ptr hfind]; exact h
    | some ret =>
      rw [decrement_of_some s size ptr ret hfind]
      exact nodup_mapKeys_mapErase _ _ h

theorem nodup_run (t : List Call) (s : PoissonSampleInterval)
    (h : (mapKeys s._allocSize).Nodup) : (mapKeys (s.run t)._allocSize).Nodup := by
  induction t generalizing s with
  | nil => exact h
  | cons c t ih => exact ih _ (nodup_step s c h)

theorem LiveSample_snoc (log : List (Call × Option Nat)) (e : Call × Option Nat)
    (ptr w : Nat) (h : LiveSample log ptr w)
    (halloc : ∀ sz v, e ≠ (Call.alloc sz ptr, some v)) (hfree : ∀ sz, e.1 ≠ Call.free sz ptr) :
    LiveSample (log ++ [e]) ptr w := by
  obtain ⟨front, size, back, hlog, hback⟩ := h
  refine ⟨front, size, back ++ [e], ?_, ?_⟩
  · rw [hlog]; simp
  · intro x hx
    rcases List.mem_append.mp hx with hx | hx
    · exact hback x hx
    · rw [List.mem_singleton.mp hx]
      exact ⟨halloc, hfree⟩

theorem LiveSample_last (log : List (Call × Option Nat)) (size ptr w : Nat) :
    LiveSample (log ++ [(Call.alloc size ptr, some w)]) ptr w :=
  ⟨log, size, [], rfl, fun _ hx => absurd hx (List.not_mem_nil _)⟩

/-- Every entry of the sampled set stems from a sampled allocation of its identity that has
been followed neither by another sampled allocation nor by a deallocation of that identity. -/
theorem entry_live (s0 : PoissonSampleInterval) (hempty : s0._allocSize = [])
    (t : List Call) (ptr w : Nat) (h : mapFind (s0.run t)._allocSize ptr = some w) :
    LiveSample (s0.outcomes t) ptr w := by
  induction t using List.reverseRecOn generalizing w with
  | nil =>
    have : mapFind s0._allocSize ptr = some w := h
    rw [hempty] at this
    simp [mapFind] at this
  | append_singleton t c ih =>
    rw [run_append] at h
    rw [outcomes_append]
    have hrun : (s0.run t).run [c] = ((s0.run t).step c).2 := rfl
    have hout : (s0.run t).outcomes [c] = [(c, ((s0.run t).step c).1)] := rfl
    rw [hrun] at h
    rw [hout]
    cases c with
    | alloc size q =>
      change mapFind ((s0.run t).increment size q).2._allocSize ptr = some w at h
      change LiveSample (s0.outcomes t ++ [(Call.alloc size q,
        ((s0.run t).increment size q).1)]) ptr w
      by_cases hgt : size > (s0.run t)._tillNextAlloc
      · rw [increment_of_gt _ size q hgt] at h ⊢
        change mapFind (mapAssign (s0.run t)._allocSize q _) ptr = some w at h
        rw [mapFind_mapAssign] at h
        by_cases hq : q = ptr
        · subst hq
          rw [if_pos rfl] at h
          rw [Option.some.inj h]
          exact LiveSample_last _ _ _ _
        · rw [if_neg hq] at h
          refine LiveSample_snoc _ _ _ _ (ih w h) ?_ ?_
          · intro sz v heq
            exact hq (Call.alloc.inj (Prod.mk.inj heq).1).2
          · intro sz heq
            exact Call.noConfusion heq
      · rw [increment_of_le _ size q (Nat.not_lt.mp hgt)] at h ⊢
        refine LiveSample_snoc _ _ _ _ (ih w h) ?_ ?_
        · intro sz v heq
          exact Option.noConfusion (Prod.mk.inj heq).2
        · intro sz heq
          exact Call.noConfusion heq
    | free size q =>
      change mapFind ((s0.run t).decrement size q).2._allocSize ptr = some w at h
      change LiveSample (s0.outcomes t ++ [(Call.free size q,
        ((s0.run t).decrement size q).1)]) ptr w
      cases hfind : mapFind (s0.run t)._allocSize q with
      | none =>
        rw [decrement_of_none _ size q hfind] at h ⊢
        have hq : q ≠ ptr := by
          intro e
          rw [e] at hfind
          rw [hfind] at h
          exact Option.noConfusion h
        refine LiveSample_snoc _ _ _ _ (ih w h) ?_ ?_
        · intro sz v heq
          exact Call.noConfusion (Prod.mk.inj heq).1
        · intro sz heq
          exact hq (Call.free.inj heq).2
      | some ret =>
        rw [decrement_of_some _ size q ret hfind] at h ⊢
        change mapFind (mapErase (s0.run t)._allocSize q) ptr = some w at h
        rw [mapFind_mapErase] at h
        by_cases hq : q = ptr
        · rw [if_pos hq] at h
          exact Option.noConfusion h
        · rw [if_neg hq] at h
          refine LiveSample_snoc _ _ _ _ (ih w h) ?_ ?_
          · intro sz v heq
            exact Call.noConfusion (Prod.mk.inj heq).1
          · intro sz heq
            exact hq (Call.free.inj heq).2

/-- C4, as amended: after any sequence of calls on a freshly constructed sampler, the sampled
set holds at most one entry per identity, and an identity has an entry only if the most recent
`observe_allocation` call for that identity that triggered a sampling event has had no
`observe_deallocation` for that identity after it; the entry holds the weight of that call. -/
theorem sampled_set_entries (draws : Nat → Nat) (t : List Call) (identity : Nat) :
    (mapKeys ((new draws).run t)._allocSize).Nodup ∧
      (identity ∈ mapKeys ((new draws).run t)._allocSize →
        ∃ w, mapFind ((new draws).run t)._allocSize identity = some w ∧
          LiveSample ((new draws).outcomes t) identity w) := by
  refine ⟨nodup_run t (new draws) List.nodup_nil, fun hmem => ?_⟩
  obtain ⟨w, hw⟩ := (mem_mapKeys_iff _ _).mp hmem
  exact ⟨w, hw, entry_live (new draws) rfl t identity w hw⟩

/-- Witness for C4: identity 7 is sampled with weight 1 and then allocated again unsampled. -/
theorem sampled_set_entries_witness :
    7 ∈ mapKeys ((new (fun n => if n = 0 then 0 else 100)).run
        [Call.alloc 1 7, Call.alloc 1 7])._allocSize ∧
      ∃ w, mapFind ((new (fun n => if n = 0 then 0 else 100)).run
          [Call.alloc 1 7, Call.alloc 1 7])._allocSize 7 = some w ∧
        LiveSample ((new (fun n => if n = 0 then 0 else 100)).outcomes
          [Call.alloc 1 7, Call.alloc 1 7]) 7 w :=
  ⟨by decide,
    (sampled_set_entries (fun n => if n = 0 then 0 else 100)
      [Call.alloc 1 7, Call.alloc 1 7] 7).2 (by decide)⟩

/-- C4 fails as stated: on the draws 0, 100, 100, ... the call `observe_allocation(1, 7)` is
sampled with weight 1 and a second `observe_allocation(1, 7)` is not sampled; identity 7 still
has its entry although its most recent `observe_allocation` did not trigger a sampling
event. -/
theorem entry_survives_unsampled_alloc :
    (new (fun n => if n = 0 then 0 else 100)).outcomes [Call.alloc 1 7, Call.alloc 1 7] =
        [(Call.alloc 1 7, some 1), (Call.alloc 1 7, none)] ∧
      mapFind ((new (fun n => if n = 0 then 0 else 100)).run
        [Call.alloc 1 7, Call.alloc 1 7])._allocSize 7 = some 1 ∧
      ¬ LastAllocSampled ((new (fun n => if n = 0 then 0 else 100)).outcomes
        [Call.alloc 1 7, Call.alloc 1 7]) 7 := by
  have hlog : (new (fun n => if n = 0 then 0 else 100)).outcomes
      [Call.alloc 1 7, Call.alloc 1 7] =
      [(Call.alloc 1 7, some 1), (Call.alloc 1 7, none)] := by decide
  refine ⟨hlog, by decide, ?_⟩
  rw [hlog]
  rintro ⟨front, size, w, back, heq, hback⟩
  match front, heq with
  | [], heq =>
    have hb : back = [(Call.alloc 1 7, none)] := (List.cons.inj heq).2.symm
    rw [hb] at hback
    exact (hback (Call.alloc 1 7, none) (List.mem_singleton.mpr rfl)).1 1 rfl
  | [_], heq =>
    have h2 := (List.cons.inj (List.cons.inj heq).2).1
    exact Option.noConfusion (Prod.mk.inj h2).2
  | _ :: _ :: rest, heq =>
    have h3 := congrArg List.length (List.cons.inj (List.cons.inj heq).2).2
    simp at h3
    omega

/-- C6, non-sampled deallocation is a no-op: after any sequence of calls on a freshly
constructed sampler, for an identity that was never the argument of a sampled
`observe_allocation`, `decrement` returns not sampled and leaves the whole state (both
counters, the sampled set, `remaining_bytes`, `last_draw`) unchanged. -/
theorem dealloc_unsampled_noop (draws : Nat → Nat) (t : List Call) (unused identity : Nat)
    (h : ∀ size w, (Call.alloc size identity, some w) ∉ (new draws).outcomes t) :
    ((new draws).run t).decrement unused identity = (none, (new draws).run t) := by
  cases hfind : mapFind ((new draws).run t)._allocSize identity with
  | none => exact decrement_of_none _ unused identity hfind
  | some w =>
    obtain ⟨front, size, back, hlog, _⟩ := entry_live (new draws) rfl t identity w hfind
    exact absurd (hlog ▸ List.mem_append_right front (List.mem_cons_self _ _)) (h size w)

/-- Witness for C6: identity 1 was allocated unsampled while identity 2 was sampled. -/
theorem dealloc_unsampled_noop_witness :
    ((new (fun _ => 100)).run [Call.alloc 50 1, Call.alloc 60 2]).decrement 0 1 =
      (none, (new (fun _ => 100)).run [Call.alloc 50 1, Call.alloc 60 2]) :=
  dealloc_unsampled_noop (fun _ => 100) [Call.alloc 50 1, Call.alloc 60 2] 0 1
    (by
      intro size w hmem
      have hlog : (new (fun _ => 100)).outcomes [Call.alloc 50 1, Call.alloc 60 2] =
          [(Call.alloc 50 1, none), (Call.alloc 60 2, some 110)] := by decide
      rw [hlog] at hmem
      simp at hmem)

/-! ## The counters -/

theorem step_monotone (s : PoissonSampleInterval) (c : Call)
    (h : counterAddFits s c = true) :
    s.allocs ≤ (s.step c).2.allocs ∧ s.frees ≤ (s.step c).2.frees := by
  cases c with
  | alloc size ptr =>
    by_cases hgt : size > s._tillNextAlloc
    · simp only [counterAddFits, step, increment_of_gt s size ptr hgt,
        decide_eq_true_eq] at h ⊢
      refine ⟨?_, Nat.le_refl _⟩
      show s.allocs ≤ (s.allocs + _) % UINT64_MOD
      rw [Nat.mod_eq_of_lt h]
      exact Nat.le_add_right _ _
    · simp only [step, increment_of_le s size ptr (Nat.not_lt.mp hgt)]
      exact ⟨Nat.le_refl _, Nat.le_refl _⟩
  | free size ptr =>
    cases hfind : mapFind s._allocSize ptr with
    | none =>
      simp only [step, decrement_of_none s size ptr hfind]
      exact ⟨Nat.le_refl _, Nat.le_refl _⟩
    | some ret =>
      simp only [counterAddFits, step, decrement_of_some s size ptr ret hfind,
        decide_eq_true_eq] at h ⊢
      refine ⟨Nat.le_refl _, ?_⟩
      show s.frees ≤ (s.frees + ret) % UINT64_MOD
      rw [Nat.mod_eq_of_lt h]
      exact Nat.le_add_right _ _

theorem run_monotone (t : List Call) (s : PoissonSampleInterval)
    (h : countersFit s t = true) :
    s.allocs ≤ (s.run t).allocs ∧ s.frees ≤ (s.run t).frees := by
  induction t generalizing s with
  | nil => exact ⟨Nat.le_refl _, Nat.le_refl _⟩
  | cons c t ih =>
    have hc : counterAddFits s c = true ∧ countersFit (s.step c).2 t = true := by
      simpa [countersFit] using h
    have h1 := step_monotone s c hc.1
    have h2 := ih (s.step c).2 hc.2
    exact ⟨Nat.le_trans h1.1 h2.1, Nat.le_trans h1.2 h2.2⟩

/-- C10, as amended: for every sampler state and every single call to `observe_allocation`
or `observe_deallocation` whose counter addition does not overflow 64 bits, the values of
`cumulative_allocated` and `cumulative_freed` after the call are at least their values before;
hence the same across any sequence of calls none of which overflows a counter. -/
theorem counters_monotone (s : PoissonSampleInterval) :
    (∀ c, counterAddFits s c = true →
        s.allocs ≤ (s.step c).2.allocs ∧ s.frees ≤ (s.step c).2.frees) ∧
      (∀ t, countersFit s t = true →
        s.allocs ≤ (s.run t).allocs ∧ s.frees ≤ (s.run t).frees) :=
  ⟨fun c h => step_monotone s c h, fun t h => run_monotone t s h⟩

/-- Witness for C10: a sampled allocation, and a sequence with a sampled allocation and its
deallocation, on a sampler whose first draw is 100. -/
theorem counters_monotone_witness :
    (0 ≤ ((new (fun _ => 100)).step (Call.alloc 101 1)).2.allocs ∧
        0 ≤ ((new (fun _ => 100)).step (Call.alloc 101 1)).2.frees) ∧
      (0 ≤ ((new (fun _ => 100)).run [Call.alloc 50 1, Call.alloc 60 2, Call.free 0 2]).allocs ∧
        0 ≤ ((new (fun _ => 100)).run [Call.alloc 50 1, Call.alloc 60 2, Call.free 0 2]).frees) :=
  ⟨(counters_monotone (new (fun _ => 100))).1 (Call.alloc 101 1) (by decide),
    (counters_monotone (new (fun _ => 100))).2
      [Call.alloc 50 1, Call.alloc 60 2, Call.free 0 2] (by decide)⟩

/-- C10 fails as stated: on a sampler whose draws are all 3, once an allocation of
`2 ^ 64 - 1` bytes has been sampled, a sampled allocation of 4 bytes takes
`cumulative_allocated` from `2 ^ 64 - 1` down to 3; after the first identity is freed, freeing
the second takes `cumulative_freed` from `2 ^ 64 - 1` down to 3. -/
theorem counters_decrease_at_overflow :
    ((new (fun _ => 3)).run [Call.alloc (2 ^ 64 - 1) 1]).allocs = 2 ^ 64 - 1 ∧
      (((new (fun _ => 3)).run [Call.alloc (2 ^ 64 - 1) 1]).increment 4 2).2.allocs = 3 ∧
      ¬ ((new (fun _ => 3)).run [Call.alloc (2 ^ 64 - 1) 1]).allocs ≤
        (((new (fun _ => 3)).run [Call.alloc (2 ^ 64 - 1) 1]).increment 4 2).2.allocs ∧
      ((new (fun _ => 3)).run
        [Call.alloc (2 ^ 64 - 1) 1, Call.alloc 4 2, Call.free 0 1]).frees = 2 ^ 64 - 1 ∧
      (((new (fun _ => 3)).run
        [Call.alloc (2 ^ 64 - 1) 1, Call.alloc 4 2, Call.free 0 1]).decrement 0 2).2.frees =
          3 ∧
      ¬ ((new (fun _ => 3)).run
          [Call.alloc (2 ^ 64 - 1) 1, Call.alloc 4 2, Call.free 0 1]).frees ≤
        (((new (fun _ => 3)).run
          [Call.alloc (2 ^ 64 - 1) 1, Call.alloc 4 2, Call.free 0 1]).decrement 0 2).2.frees := by
  decide

/-! ## Fixed draw sequences -/

theorem new_fields (draws : Nat → Nat) :
    (new draws)._tillNextAlloc = draws 0 % UINT64_MOD ∧
      (new draws)._countdownAlloc = draws 0 % UINT64_MOD ∧
      (new draws).allocs = 0 ∧ (new draws).frees = 0 ∧ (new draws)._allocSize = [] :=
  ⟨rfl, rfl, rfl, rfl, rfl⟩

/-- C11, as amended: on a sampler freshly constructed over a stub whose first draw is
`d1 >= 1` (a 64-bit value), `observe_allocation` with size `d1 - 1` is not sampled and leaves
`remaining_bytes == 1`, and the next `observe_allocation` with size 2 is sampled with weight
`(d1 + 1) mod 2 ^ 64`, which is `d1 + 1` for every `d1` below `2 ^ 64 - 1`. -/
theorem threshold_determinism (draws : Nat → Nat) (d1 A B : Nat) (hd : draws 0 = d1)
    (h1 : 1 ≤ d1) (h64 : d1 < UINT64_MOD) :
    ((new draws).increment (d1 - 1) A).1 = none ∧
      ((new draws).increment (d1 - 1) A).2._tillNextAlloc = 1 ∧
      (((new draws).increment (d1 - 1) A).2.increment 2 B).1 = some ((d1 + 1) % UINT64_MOD) ∧
      (d1 + 1 < UINT64_MOD →
        (((new draws).increment (d1 - 1) A).2.increment 2 B).1 = some (d1 + 1)) := by
  have htill : (new draws)._tillNextAlloc = d1 := by
    rw [(new_fields draws).1, hd]; exact Nat.mod_eq_of_lt h64
  have hcd : (new draws)._countdownAlloc = d1 := by
    rw [(new_fields draws).2.1, hd]; exact Nat.mod_eq_of_lt h64
  have hle : d1 - 1 ≤ (new draws)._tillNextAlloc := by rw [htill]; exact Nat.sub_le _ _
  rw [increment_of_le (new draws) (d1 - 1) A hle]
  have hone : (new draws)._tillNextAlloc - (d1 - 1) = 1 := by rw [htill]; omega
  have hgt : 2 > ({ new draws with
      _tillNextAlloc := (new draws)._tillNextAlloc - (d1 - 1) } : PoissonSampleInterval)._tillNextAlloc := by
    show 2 > (new draws)._tillNextAlloc - (d1 - 1)
    rw [hone]; exact Nat.lt_succ_self 1
  rw [increment_of_gt _ 2 B hgt]
  have hret : (new draws)._countdownAlloc + (2 - ((new draws)._tillNextAlloc - (d1 - 1))) =
      d1 + 1 := by rw [hone, hcd]
  refine ⟨rfl, hone, ?_, fun hfit => ?_⟩
  · show some (((new draws)._countdownAlloc +
      (2 - ((new draws)._tillNextAlloc - (d1 - 1)))) % UINT64_MOD) = _
    rw [hret]
  · show some (((new draws)._countdownAlloc +
      (2 - ((new draws)._tillNextAlloc - (d1 - 1)))) % UINT64_MOD) = _
    rw [hret, Nat.mod_eq_of_lt hfit]

/-- Witness for C11: the stub 100, 100, ... with identities 1 and 2. -/
theorem threshold_determinism_witness :
    ((new (fun _ => 100)).increment 99 1).1 = none ∧
      ((new (fun _ => 100)).increment 99 1).2._tillNextAlloc = 1 ∧
      (((new (fun _ => 100)).increment 99 1).2.increment 2 2).1 = some 101 :=
  ⟨(threshold_determinism (fun _ => 100) 100 1 2 rfl (by decide) (by decide)).1,
    (threshold_determinism (fun _ => 100) 100 1 2 rfl (by decide) (by decide)).2.1,
    (threshold_determinism (fun _ => 100) 100 1 2 rfl (by decide) (by decide)).2.2.2
      (by decide)⟩

/-- C11 fails as stated: on the stub whose draws are all `d1 = 2 ^ 64 - 1`, the allocation of
`d1 - 1` bytes is not sampled and leaves `remaining_bytes == 1`, but the following allocation
of 2 bytes is sampled with weight 0, not `d1 + 1 = 2 ^ 64`. -/
theorem threshold_weight_wraps_at_max_draw :
    ((new (fun _ => 2 ^ 64 - 1)).increment (2 ^ 64 - 1 - 1) 1).1 = none ∧
      ((new (fun _ => 2 ^ 64 - 1)).increment (2 ^ 64 - 1 - 1) 1).2._tillNextAlloc = 1 ∧
      (((new (fun _ => 2 ^ 64 - 1)).increment (2 ^ 64 - 1 - 1) 1).2.increment 2 2).1 =
        some 0 ∧
      (((new (fun _ => 2 ^ 64 - 1)).increment (2 ^ 64 - 1 - 1) 1).2.increment 2 2).1 ≠
        some (2 ^ 64 - 1 + 1) := by
  decide

/-- C12, the scenario: on a sampler whose first draw is 100, with distinct identities `A` and
`B`, `observe_allocation(50, A)` is not sampled and leaves `remaining_bytes = 50`;
`observe_allocation(60, B)` is sampled with weight 110, after which the sampled set is exactly
`{B: 110}` and `cumulative_allocated = 110`; `observe_deallocation(A)` is not sampled and
changes nothing; `observe_deallocation(B)` returns 110, after which the sampled set is empty and
`cumulative_freed = 110`. -/
theorem scenario_first_draw_100 (draws : Nat → Nat) (A B : Nat) (h : draws 0 = 100)
    (hAB : A ≠ B) :
    ((new draws).increment 50 A).1 = none ∧
      ((new draws).run [Call.alloc 50 A])._tillNextAlloc = 50 ∧
      (((new draws).run [Call.alloc 50 A]).increment 60 B).1 = some 110 ∧
      ((new draws).run [Call.alloc 50 A, Call.alloc 60 B])._allocSize = [(B, 110)] ∧
      ((new draws).run [Call.alloc 50 A, Call.alloc 60 B]).allocs = 110 ∧
      ((new draws).run [Call.alloc 50 A, Call.alloc 60 B]).decrement 0 A =
        (none, (new draws).run [Call.alloc 50 A, Call.alloc 60 B]) ∧
      (((new draws).run [Call.alloc 50 A, Call.alloc 60 B, Call.free 0 A]).decrement 0 B).1 =
        some 110 ∧
      ((new draws).run
        [Call.alloc 50 A, Call.alloc 60 B, Call.free 0 A, Call.free 0 B])._allocSize = [] ∧
      ((new draws).run
        [Call.alloc 50 A, Call.alloc 60 B, Call.free 0 A, Call.free 0 B]).frees = 110 := by
  have hBA : ¬ B = A := fun e => hAB e.symm
  simp [run, step, new, increment, decrement, resetAlloc, unlikely, h, UINT64_MOD, mapAssign,
    mapFind, mapErase, hBA]

/-- Witness for C12: the stub 100, 100, ... with `A = 1` and `B = 2`. -/
theorem scenario_first_draw_100_witness :
    ((new (fun _ => 100)).run [Call.alloc 50 1, Call.alloc 60 2])._allocSize = [(2, 110)] ∧
      ((new (fun _ => 100)).run
        [Call.alloc 50 1, Call.alloc 60 2, Call.free 0 1, Call.free 0 2]).frees = 110 :=
  ⟨(scenario_first_draw_100 (fun _ => 100) 1 2 rfl (by decide)).2.2.2.1,
    (scenario_first_draw_100 (fun _ => 100) 1 2 rfl (by decide)).2.2.2.2.2.2.2.2⟩

/-- C14, zero-byte allocations are no-ops: in every sampler state, also one with
`remaining_bytes == 0`, `observe_allocation(0, identity)` returns not sampled and leaves the
whole state (`remaining_bytes`, `last_draw`, the sampled set, both counters) unchanged. -/
theorem zero_byte_alloc_noop (s : PoissonSampleInterval) (identity : Nat) :
    s.increment 0 identity = (none, s) := by
  rw [increment_of_le s 0 identity (Nat.zero_le _)]
  rfl

/-- C15, as amended: when the call crosses the threshold, the value `increment` reports
through `ret` is the previous sample interval (the value of `_countdownAlloc` held before the
interval was reset) plus the overshoot `sample - _tillNextAlloc`, reduced modulo `2 ^ 64`;
when that sum fits in 64 bits the reported value exceeds the previous sample interval by
exactly the overshoot, which is at least 1. -/
theorem reported_value_is_interval_plus_overshoot (s : PoissonSampleInterval)
    (sample ptr : Nat) (h : sample > s._tillNextAlloc) :
    (s.increment sample ptr).1 =
        some ((s._countdownAlloc + (sample - s._tillNextAlloc)) % UINT64_MOD) ∧
      (s._countdownAlloc + (sample - s._tillNextAlloc) < UINT64_MOD →
        ∃ ret, (s.increment sample ptr).1 = some ret ∧
          ret = s._countdownAlloc + (sample - s._tillNextAlloc) ∧
          1 ≤ sample - s._tillNextAlloc ∧ s._countdownAlloc < ret) := by
  rw [increment_of_gt s sample ptr h]
  refine ⟨rfl, fun hfit => ⟨s._countdownAlloc + (sample - s._tillNextAlloc), ?_, rfl, ?_, ?_⟩⟩
  · show some ((s._countdownAlloc + (sample - s._tillNextAlloc)) % UINT64_MOD) = _
    rw [Nat.mod_eq_of_lt hfit]
  · omega
  · omega

/-- Witness for C15: on a first draw of 100, after 50 unsampled bytes, `increment(60, 2)`
reports 110, the previous interval 100 plus the overshoot 10. -/
theorem reported_value_is_interval_plus_overshoot_witness :
    60 > ((new (fun _ => 100)).run [Call.alloc 50 1])._tillNextAlloc ∧
      ((new (fun _ => 100)).run [Call.alloc 50 1])._countdownAlloc = 100 ∧
      (((new (fun _ => 100)).run [Call.alloc 50 1]).increment 60 2).1 = some 110 ∧
      ∃ ret, (((new (fun _ => 100)).run [Call.alloc 50 1]).increment 60 2).1 = some ret ∧
        ret = ((new (fun _ => 100)).run [Call.alloc 50 1])._countdownAlloc +
          (60 - ((new (fun _ => 100)).run [Call.alloc 50 1])._tillNextAlloc) ∧
        1 ≤ 60 - ((new (fun _ => 100)).run [Call.alloc 50 1])._tillNextAlloc ∧
        ((new (fun _ => 100)).run [Call.alloc 50 1])._countdownAlloc < ret :=
  ⟨by decide, by decide,
    (reported_value_is_interval_plus_overshoot
      ((new (fun _ => 100)).run [Call.alloc 50 1]) 60 2 (by decide)).1,
    (reported_value_is_interval_plus_overshoot
      ((new (fun _ => 100)).run [Call.alloc 50 1]) 60 2 (by decide)).2 (by decide)⟩

/-- C15 fails as stated: on a sampler whose first draw is 100, `increment(101, 1)` crosses the
threshold while `_countdownAlloc` is 100, and the value written to `ret` is 101 (the previous
interval plus the overshoot), not the previous sample interval. -/
theorem reported_value_is_not_previous_interval :
    (new (fun _ => 100))._countdownAlloc = 100 ∧
      ((new (fun _ => 100)).increment 101 1).1 = some 101 ∧
      ((new (fun _ => 100)).increment 101 1).1 ≠ some (new (fun _ => 100))._countdownAlloc := by
  decide

/-! ## The countdown never exceeds the draw -/

theorem step_till_le (s : PoissonSampleInterval) (c : Call)
    (h : s._tillNextAlloc ≤ s._countdownAlloc) :
    (s.step c).2._tillNextAlloc ≤ (s.step c).2._countdownAlloc := by
  cases c with
  | alloc size ptr =>
    show (s.increment size ptr).2._tillNextAlloc ≤ (s.increment size ptr).2._countdownAlloc
    by_cases hgt : size > s._tillNextAlloc
    · rw [increment_of_gt s size ptr hgt]
      exact Nat.le_refl _
    · rw [increment_of_le s size ptr (Nat.not_lt.mp hgt)]
      exact Nat.le_trans (Nat.sub_le _ _) h
  | free size ptr =>
    show (s.decrement size ptr).2._tillNextAlloc ≤ (s.decrement size ptr).2._countdownAlloc
    cases hfind : mapFind s._allocSize ptr with
    | none => rw [decrement_of_none s size ptr hfind]; exact h
    | some ret => rw [decrement_of_some s size ptr ret hfind]; exact h

theorem run_till_le (t : List Call) (s : PoissonSampleInterval)
    (h : s._tillNextAlloc ≤ s._countdownAlloc) :
    (s.run t)._tillNextAlloc ≤ (s.run t)._countdownAlloc := by
  induction t generalizing s with
  | nil => exact h
  | cons c t ih => exact ih _ (step_till_le s c h)

/-- C18: in every state reachable from a freshly constructed sampler,
`remaining_bytes <= last_draw` (`_tillNextAlloc <= _countdownAlloc`), and whenever `increment`
executes `_tillNextAlloc -= sample` (the branch that does not sample) the subtrahend is at most
`_tillNextAlloc`, so the subtraction does not underflow. -/
theorem till_le_countdown (draws : Nat → Nat) (t : List Call) (size identity : Nat) :
    ((new draws).run t)._tillNextAlloc ≤ ((new draws).run t)._countdownAlloc ∧
      ((((new draws).run t).increment size identity).1 = none →
        size ≤ ((new draws).run t)._tillNextAlloc ∧
          (((new draws).run t).increment size identity).2._tillNextAlloc + size =
            ((new draws).run t)._tillNextAlloc) := by
  refine ⟨run_till_le t (new draws) (Nat.le_refl _), fun hnone => ?_⟩
  by_cases hgt : size > ((new draws).run t)._tillNextAlloc
  · rw [increment_of_gt _ size identity hgt] at hnone
    exact Option.noConfusion hnone
  · have hle := Nat.not_lt.mp hgt
    rw [increment_of_le _ size identity hle]
    exact ⟨hle, Nat.sub_add_cancel hle⟩

/-- Witness for C18: after 50 bytes on a first draw of 100, 30 more bytes are not sampled. -/
theorem till_le_countdown_witness :
    30 ≤ ((new (fun _ => 100)).run [Call.alloc 50 1])._tillNextAlloc ∧
      (((new (fun _ => 100)).run [Call.alloc 50 1]).increment 30 2).2._tillNextAlloc + 30 =
        ((new (fun _ => 100)).run [Call.alloc 50 1])._tillNextAlloc :=
  (till_le_countdown (fun _ => 100) [Call.alloc 50 1] 30 2).2 (by decide)


/-! ## Exact byte accounting -/

theorem noOverflow_cons (s : PoissonSampleInterval) (c : Call) (t : List Call)
    (h : noOverflow s (c :: t) = true) :
    weightFits s c = true ∧ counterAddFits s c = true ∧ noOverflow (s.step c).2 t = true := by
  simpa [noOverflow, and_assoc] using h

theorem weightFits_alloc (s : PoissonSampleInterval) (size ptr : Nat)
    (h : weightFits s (Call.alloc size ptr) = true) (hgt : size > s._tillNextAlloc) :
    s._countdownAlloc + (size - s._tillNextAlloc) < UINT64_MOD := by
  simp only [weightFits, decide_eq_true_eq] at h
  rcases h with h | h
  · exact absurd hgt (Nat.not_lt.mpr h)
  · exact h

theorem counterAddFits_alloc (s : PoissonSampleInterval) (size ptr : Nat)
    (h : counterAddFits s (Call.alloc size ptr) = true) (hgt : size > s._tillNextAlloc) :
    s.allocs + (s._countdownAlloc + (size - s._tillNextAlloc)) % UINT64_MOD < UINT64_MOD := by
  simpa only [counterAddFits, step, increment_of_gt s size ptr hgt, decide_eq_true_eq] using h

theorem counterAddFits_free (s : PoissonSampleInterval) (size ptr ret : Nat)
    (h : counterAddFits s (Call.free size ptr) = true)
    (hfind : mapFind s._allocSize ptr = some ret) : s.frees + ret < UINT64_MOD := by
  simpa only [counterAddFits, step, decrement_of_some s size ptr ret hfind,
    decide_eq_true_eq] using h

theorem step_accounting (s : PoissonSampleInterval) (c : Call)
    (hle : s._tillNextAlloc ≤ s._countdownAlloc) (hw : weightFits s c = true)
    (hc : counterAddFits s c = true) :
    (s.step c).2.allocs + ((s.step c).2._countdownAlloc - (s.step c).2._tillNextAlloc) =
      s.allocs + (s._countdownAlloc - s._tillNextAlloc) + allocatedBytes [c] := by
  cases c with
  | alloc size ptr =>
    show (s.increment size ptr).2.allocs + ((s.increment size ptr).2._countdownAlloc -
      (s.increment size ptr).2._tillNextAlloc) = _ + (size + 0)
    by_cases hgt : size > s._tillNextAlloc
    · have h1 := weightFits_alloc s size ptr hw hgt
      have h2 := counterAddFits_alloc s size ptr hc hgt
      rw [Nat.mod_eq_of_lt h1] at h2
      rw [increment_of_gt s size ptr hgt]
      show (s.allocs + (s._countdownAlloc + (size - s._tillNextAlloc)) % UINT64_MOD)
        % UINT64_MOD + (s.draws s.drawn % UINT64_MOD - s.draws s.drawn % UINT64_MOD) = _
      rw [Nat.mod_eq_of_lt h1, Nat.mod_eq_of_lt h2]
      omega
    · rw [increment_of_le s size ptr (Nat.not_lt.mp hgt)]
      show s.allocs + (s._countdownAlloc - (s._tillNextAlloc - size)) = _
      omega
  | free size ptr =>
    show (s.decrement size ptr).2.allocs + ((s.decrement size ptr).2._countdownAlloc -
      (s.decrement size ptr).2._tillNextAlloc) = _ + 0
    cases hfind : mapFind s._allocSize ptr with
    | none => rw [decrement_of_none s size ptr hfind]; rfl
    | some ret => rw [decrement_of_some s size ptr ret hfind]; rfl

theorem allocatedBytes_cons (c : Call) (t : List Call) :
    allocatedBytes (c :: t) = allocatedBytes [c] + allocatedBytes t := by
  cases c <;> simp [allocatedBytes]

theorem run_accounting (t : List Call) (s : PoissonSampleInterval)
    (hle : s._tillNextAlloc ≤ s._countdownAlloc) (h : noOverflow s t = true) :
    (s.run t).allocs + ((s.run t)._countdownAlloc - (s.run t)._tillNextAlloc) =
      s.allocs + (s._countdownAlloc - s._tillNextAlloc) + allocatedBytes t := by
  induction t generalizing s with
  | nil => rfl
  | cons c t ih =>
    obtain ⟨hw, hc, ht⟩ := noOverflow_cons s c t h
    have h1 := step_accounting s c hle hw hc
    have h2 := ih (s.step c).2 (step_till_le s c hle) ht
    show ((s.step c).2.run t).allocs + (((s.step c).2.run t)._countdownAlloc -
      ((s.step c).2.run t)._tillNextAlloc) = _
    rw [h2, h1, allocatedBytes_cons c t, Nat.add_assoc]

theorem step_pending (s : PoissonSampleInterval) (c : Call)
    (hle : s._tillNextAlloc ≤ s._countdownAlloc) :
    (s.step c).2._countdownAlloc - (s.step c).2._tillNextAlloc =
      pendingAfter (s._countdownAlloc - s._tillNextAlloc) (c, (s.step c).1) := by
  cases c with
  | alloc size ptr =>
    show (s.increment size ptr).2._countdownAlloc - (s.increment size ptr).2._tillNextAlloc =
      pendingAfter _ (Call.alloc size ptr, (s.increment size ptr).1)
    by_cases hgt : size > s._tillNextAlloc
    · rw [increment_of_gt s size ptr hgt]
      exact Nat.sub_self _
    · rw [increment_of_le s size ptr (Nat.not_lt.mp hgt)]
      show s._countdownAlloc - (s._tillNextAlloc - size) = _ + size
      omega
  | free size ptr =>
    show (s.decrement size ptr).2._countdownAlloc - (s.decrement size ptr).2._tillNextAlloc =
      pendingAfter _ (Call.free size ptr, (s.decrement size ptr).1)
    cases hfind : mapFind s._allocSize ptr with
    | none => rw [decrement_of_none s size ptr hfind]; rfl
    | some ret => rw [decrement_of_some s size ptr ret hfind]; rfl

theorem run_pending (t : List Call) (s : PoissonSampleInterval)
    (hle : s._tillNextAlloc ≤ s._countdownAlloc) :
    (s.run t)._countdownAlloc - (s.run t)._tillNextAlloc =
      (s.outcomes t).foldl pendingAfter (s._countdownAlloc - s._tillNextAlloc) := by
  induction t generalizing s with
  | nil => rfl
  | cons c t ih =>
    show ((s.step c).2.run t)._countdownAlloc - ((s.step c).2.run t)._tillNextAlloc =
      ((s.step c).2.outcomes t).foldl pendingAfter
        (pendingAfter (s._countdownAlloc - s._tillNextAlloc) (c, (s.step c).1))
    rw [ih (s.step c).2 (step_till_le s c hle), step_pending s c hle]


theorem noOverflow_append (t u : List Call) (s : PoissonSampleInterval)
    (h : noOverflow s (t ++ u) = true) :
    noOverflow s t = true ∧ noOverflow (s.run t) u = true := by
  induction t generalizing s with
  | nil => exact ⟨rfl, h⟩
  | cons c t ih =>
    obtain ⟨hw, hc, ht⟩ := noOverflow_cons s c (t ++ u) h
    obtain ⟨h1, h2⟩ := ih (s.step c).2 ht
    refine ⟨?_, h2⟩
    simp [noOverflow, hw, hc, h1]

theorem outcomes_split (t : List Call) (s : PoissonSampleInterval)
    (front back : List (Call × Option Nat)) (e : Call × Option Nat)
    (h : s.outcomes t = front ++ e :: back) :
    ∃ t1 c t2, t = t1 ++ c :: t2 ∧ front = s.outcomes t1 ∧ e = (c, ((s.run t1).step c).1) := by
  induction t generalizing s front with
  | nil =>
    have hlen := congrArg List.length h
    simp [outcomes] at hlen
    omega
  | cons c t ih =>
    have hcons : s.outcomes (c :: t) = (c, (s.step c).1) :: (s.step c).2.outcomes t := rfl
    rw [hcons] at h
    cases front with
    | nil =>
      exact ⟨[], c, t, rfl, rfl, (List.cons.inj h).1.symm⟩
    | cons x front =>
      have hx : (c, (s.step c).1) = x := (List.cons.inj h).1
      obtain ⟨t1, c1, t2, ht, hfront, he⟩ := ih (s.step c).2 front (List.cons.inj h).2
      refine ⟨c :: t1, c1, t2, by rw [ht]; rfl, ?_, he⟩
      show x :: front = (c, (s.step c).1) :: (s.step c).2.outcomes t1
      rw [hx, hfront]

/-- A sampling event recorded in the log of a sequence that overflows nothing happened in a
state reached by a prefix of the sequence, and its own weight did not overflow. -/
theorem sampled_event_state (t : List Call) (s : PoissonSampleInterval)
    (h : noOverflow s t = true) (front back : List (Call × Option Nat))
    (size ptr w : Nat) (hlog : s.outcomes t = front ++ (Call.alloc size ptr, some w) :: back) :
    ∃ t1, front = s.outcomes t1 ∧ weightFits (s.run t1) (Call.alloc size ptr) = true ∧
      ((s.run t1).increment size ptr).1 = some w := by
  obtain ⟨t1, c, t2, ht, hfront, he⟩ := outcomes_split t s front back _ hlog
  have hc : c = Call.alloc size ptr := (Prod.mk.inj he).1.symm
  subst hc
  rw [ht] at h
  obtain ⟨hw, _, _⟩ := noOverflow_cons _ _ _ (noOverflow_append t1 _ s h).2
  exact ⟨t1, hfront, hw, (Prod.mk.inj he).2.symm⟩

/-- C17, exact byte accounting: for every draw sequence and every sequence of calls on a
freshly constructed sampler that overflows nothing, `cumulative_allocated + (last_draw -
remaining_bytes)` equals the sum of the size arguments of all `observe_allocation` calls made
so far; and each sampled weight equals the total size of all allocations observed since the
previous sampling event, the sampled one included. -/
theorem exact_byte_accounting (draws : Nat → Nat) (t : List Call)
    (h : noOverflow (new draws) t = true) :
    ((new draws).run t).allocs +
        (((new draws).run t)._countdownAlloc - ((new draws).run t)._tillNextAlloc) =
        allocatedBytes t ∧
      ∀ front size identity w back,
        (new draws).outcomes t = front ++ (Call.alloc size identity, some w) :: back →
        w = pendingBytes front + size := by
  have hnew : (new draws)._tillNextAlloc ≤ (new draws)._countdownAlloc := Nat.le_refl _
  constructor
  · rw [run_accounting t (new draws) hnew h]
    show 0 + (draws 0 % UINT64_MOD - draws 0 % UINT64_MOD) + allocatedBytes t = _
    omega
  · intro front size identity w back hlog
    obtain ⟨t1, hfront, hw, hsome⟩ :=
      sampled_event_state t (new draws) h front back size identity w hlog
    have hle := run_till_le t1 (new draws) hnew
    have hpend := run_pending t1 (new draws) hnew
    have hzero : (new draws)._countdownAlloc - (new draws)._tillNextAlloc = 0 := Nat.sub_self _
    rw [hzero] at hpend
    by_cases hgt : size > ((new draws).run t1)._tillNextAlloc
    · have hfit := weightFits_alloc _ size identity hw hgt
      rw [increment_of_gt _ size identity hgt] at hsome
      have hret : (((new draws).run t1)._countdownAlloc +
          (size - ((new draws).run t1)._tillNextAlloc)) % UINT64_MOD = w := Option.some.inj hsome
      rw [Nat.mod_eq_of_lt hfit] at hret
      show w = List.foldl pendingAfter 0 front + size
      rw [hfront, ← hpend]
      omega
    · rw [increment_of_le _ size identity (Nat.not_lt.mp hgt)] at hsome
      exact Option.noConfusion hsome

/-- Witness for C17: 50, 60, 3 and 200 bytes on the stub 100, 100, ...; the second sampled
weight, 203, is the 3 bytes pending plus the 200 of the sampled allocation. -/
theorem exact_byte_accounting_witness :
    noOverflow (new (fun _ => 100))
        [Call.alloc 50 1, Call.alloc 60 2, Call.alloc 3 3, Call.alloc 200 4] = true ∧
      ((new (fun _ => 100)).run
          [Call.alloc 50 1, Call.alloc 60 2, Call.alloc 3 3, Call.alloc 200 4]).allocs +
        (((new (fun _ => 100)).run
            [Call.alloc 50 1, Call.alloc 60 2, Call.alloc 3 3,
              Call.alloc 200 4])._countdownAlloc -
          ((new (fun _ => 100)).run
            [Call.alloc 50 1, Call.alloc 60 2, Call.alloc 3 3,
              Call.alloc 200 4])._tillNextAlloc) = 313 ∧
      203 = pendingBytes
        [(Call.alloc 50 1, none), (Call.alloc 60 2, some 110), (Call.alloc 3 3, none)] + 200 :=
  ⟨by decide,
    (exact_byte_accounting (fun _ => 100)
      [Call.alloc 50 1, Call.alloc 60 2, Call.alloc 3 3, Call.alloc 200 4] (by decide)).1,
    (exact_byte_accounting (fun _ => 100)
      [Call.alloc 50 1, Call.alloc 60 2, Call.alloc 3 3, Call.alloc 200 4] (by decide)).2
      [(Call.alloc 50 1, none), (Call.alloc 60 2, some 110), (Call.alloc 3 3, none)]
      200 4 203 [] (by decide)⟩

/-! ## Sampled weights are positive -/

theorem mem_mapAssign (m : List (Nat × Nat)) (p v : Nat) (e : Nat × Nat)
    (h : e ∈ mapAssign m p v) : e ∈ m ∨ e = (p, v) := by
  induction m with
  | nil =>
    right
    simpa [mapAssign] using h
  | cons x m ih =>
    obtain ⟨k, w⟩ := x
    by_cases hk : k = p
    · have hm : mapAssign ((k, w) :: m) p v = (k, v) :: m := by simp [mapAssign, hk]
      rw [hm] at h
      rcases List.mem_cons.mp h with h | h
      · right; rw [h, hk]
      · left; exact List.mem_cons_of_mem _ h
    · have hm : mapAssign ((k, w) :: m) p v = (k, w) :: mapAssign m p v := by
        simp [mapAssign, hk]
      rw [hm] at h
      rcases List.mem_cons.mp h with h | h
      · left; rw [h]; exact List.mem_cons_self _ _
      · rcases ih h with h | h
        · left; exact List.mem_cons_of_mem _ h
        · right; exact h

theorem mem_of_mem_mapErase (m : List (Nat × Nat)) (p : Nat) (e : Nat × Nat)
    (h : e ∈ mapErase m p) : e ∈ m := by
  rw [mapErase_eq_filter] at h
  exact List.mem_of_mem_filter h

theorem mem_of_mapFind (m : List (Nat × Nat)) (p v : Nat) (h : mapFind m p = some v) :
    (p, v) ∈ m := by
  induction m with
  | nil => simp [mapFind] at h
  | cons x m ih =>
    obtain ⟨k, w⟩ := x
    by_cases hk : k = p
    · simp only [mapFind, hk, if_true] at h
      rw [hk, Option.some.inj h]
      exact List.mem_cons_self _ _
    · simp only [mapFind, hk, if_false] at h
      exact List.mem_cons_of_mem _ (ih h)

theorem sampled_weight_bounds (s : PoissonSampleInterval) (size ptr w : Nat)
    (hle : s._tillNextAlloc ≤ s._countdownAlloc)
    (hw : weightFits s (Call.alloc size ptr) = true)
    (hsome : (s.increment size ptr).1 = some w) : size ≤ w ∧ 1 ≤ w := by
  by_cases hgt : size > s._tillNextAlloc
  · have hfit := weightFits_alloc s size ptr hw hgt
    rw [increment_of_gt s size ptr hgt] at hsome
    have hret : (s._countdownAlloc + (size - s._tillNextAlloc)) % UINT64_MOD = w :=
      Option.some.inj hsome
    rw [Nat.mod_eq_of_lt hfit] at hret
    omega
  · rw [increment_of_le s size ptr (Nat.not_lt.mp hgt)] at hsome
    exact Option.noConfusion hsome


theorem step_entries_pos (s : PoissonSampleInterval) (c : Call)
    (hle : s._tillNextAlloc ≤ s._countdownAlloc) (hw : weightFits s c = true)
    (hpos : ∀ e ∈ s._allocSize, 0 < e.2) : ∀ e ∈ (s.step c).2._allocSize, 0 < e.2 := by
  cases c with
  | alloc size ptr =>
    show ∀ e ∈ (s.increment size ptr).2._allocSize, 0 < e.2
    by_cases hgt : size > s._tillNextAlloc
    · have hb := sampled_weight_bounds s size ptr _ hle hw
        (by rw [increment_of_gt s size ptr hgt])
      rw [increment_of_gt s size ptr hgt]
      intro e he
      rcases mem_mapAssign _ _ _ e he with h | h
      · exact hpos e h
      · rw [h]; exact hb.2
    · rw [increment_of_le s size ptr (Nat.not_lt.mp hgt)]
      exact hpos
  | free size ptr =>
    show ∀ e ∈ (s.decrement size ptr).2._allocSize, 0 < e.2
    cases hfind : mapFind s._allocSize ptr with
    | none => rw [decrement_of_none s size ptr hfind]; exact hpos
    | some ret =>
      rw [decrement_of_some s size ptr ret hfind]
      intro e he
      exact hpos e (mem_of_mem_mapErase _ _ e he)

theorem run_entries_pos (t : List Call) (s : PoissonSampleInterval)
    (hle : s._tillNextAlloc ≤ s._countdownAlloc) (h : noOverflow s t = true)
    (hpos : ∀ e ∈ s._allocSize, 0 < e.2) : ∀ e ∈ (s.run t)._allocSize, 0 < e.2 := by
  induction t generalizing s with
  | nil => exact hpos
  | cons c t ih =>
    obtain ⟨hw, _, ht⟩ := noOverflow_cons s c t h
    exact ih (s.step c).2 (step_till_le s c hle) ht (step_entries_pos s c hle hw hpos)

/-- C20: in every sequence of calls on a freshly constructed sampler that overflows
nothing, whenever `observe_allocation(size, identity)` samples, the returned weight is at
least `size` and at least 1; every weight stored in the sampled set and every weight returned
by `observe_deallocation` in the state reached is strictly positive. -/
theorem sampled_weight_positive (draws : Nat → Nat) (t : List Call)
    (h : noOverflow (new draws) t = true) :
    (∀ size identity w, (Call.alloc size identity, some w) ∈ (new draws).outcomes t →
        size ≤ w ∧ 1 ≤ w) ∧
      (∀ e ∈ ((new draws).run t)._allocSize, 0 < e.2) ∧
      (∀ unused identity w,
        (((new draws).run t).decrement unused identity).1 = some w → 0 < w) := by
  have hnew : (new draws)._tillNextAlloc ≤ (new draws)._countdownAlloc := Nat.le_refl _
  have hpos := run_entries_pos t (new draws) hnew h
    (fun e he => absurd he (List.not_mem_nil e))
  refine ⟨fun size identity w hmem => ?_, hpos, fun unused identity w hsome => ?_⟩
  · obtain ⟨front, back, hlog⟩ := List.mem_iff_append.mp hmem
    obtain ⟨t1, _, hw, hsome⟩ :=
      sampled_event_state t (new draws) h front back size identity w hlog
    exact sampled_weight_bounds _ size identity w (run_till_le t1 (new draws) hnew) hw hsome
  · cases hfind : mapFind ((new draws).run t)._allocSize identity with
    | none =>
      rw [decrement_of_none _ unused identity hfind] at hsome
      exact Option.noConfusion hsome
    | some ret =>
      rw [decrement_of_some _ unused identity ret hfind] at hsome
      have hret : ret = w := Option.some.inj hsome
      rw [← hret]
      exact hpos (identity, ret) (mem_of_mapFind _ _ _ hfind)

/-- Witness for C20: 50, 60, 10 and 200 bytes on the stub 100, 100, ...: the allocation of
200 bytes is sampled with weight 210, and freeing identity 2 returns the positive weight
110. -/
theorem sampled_weight_positive_witness :
    noOverflow (new (fun _ => 100))
        [Call.alloc 50 1, Call.alloc 60 2, Call.alloc 10 3, Call.alloc 200 4] = true ∧
      (Call.alloc 200 4, some 210) ∈ (new (fun _ => 100)).outcomes
        [Call.alloc 50 1, Call.alloc 60 2, Call.alloc 10 3, Call.alloc 200 4] ∧
      (200 ≤ 210 ∧ 1 ≤ 210) ∧
      (((new (fun _ => 100)).run
        [Call.alloc 50 1, Call.alloc 60 2, Call.alloc 10 3, Call.alloc 200 4]).decrement
          0 2).1 = some 110 ∧
      0 < 110 :=
  ⟨by decide, by decide,
    (sampled_weight_positive (fun _ => 100)
      [Call.alloc 50 1, Call.alloc 60 2, Call.alloc 10 3, Call.alloc 200 4] (by decide)).1
      200 4 210 (by decide),
    by decide,
    (sampled_weight_positive (fun _ => 100)
      [Call.alloc 50 1, Call.alloc 60 2, Call.alloc 10 3, Call.alloc 200 4] (by decide)).2.2
      0 2 110 (by decide)⟩

/-! ## Counters against the weights held in the sampled set -/

theorem weightSum_cons (k v : Nat) (m : List (Nat × Nat)) :
    weightSum ((k, v) :: m) = v + weightSum m := by
  simp [weightSum]

theorem weightSum_mapAssign_le (m : List (Nat × Nat)) (p v : Nat) :
    weightSum (mapAssign m p v) ≤ weightSum m + v := by
  induction m with
  | nil => simp [mapAssign, weightSum]
  | cons x m ih =>
    obtain ⟨k, w⟩ := x
    by_cases hk : k = p
    · have hm : mapAssign ((k, w) :: m) p v = (k, v) :: m := by simp [mapAssign, hk]
      rw [hm, weightSum_cons, weightSum_cons]
      omega
    · have hm : mapAssign ((k, w) :: m) p v = (k, w) :: mapAssign m p v := by
        simp [mapAssign, hk]
      rw [hm, weightSum_cons, weightSum_cons]
      omega

theorem weightSum_mapAssign_absent (m : List (Nat × Nat)) (p v : Nat)
    (h : mapFind m p = none) : weightSum (mapAssign m p v) = weightSum m + v := by
  induction m with
  | nil => simp [mapAssign, weightSum]
  | cons x m ih =>
    obtain ⟨k, w⟩ := x
    by_cases hk : k = p
    · simp [mapFind, hk] at h
    · have hm : mapAssign ((k, w) :: m) p v = (k, w) :: mapAssign m p v := by
        simp [mapAssign, hk]
      have hrest : mapFind m p = none := by simpa [mapFind, hk] using h
      rw [hm, weightSum_cons, weightSum_cons, ih hrest]
      omega

theorem weightSum_mapErase_le (m : List (Nat × Nat)) (p r : Nat)
    (h : mapFind m p = some r) : weightSum (mapErase m p) + r ≤ weightSum m := by
  induction m with
  | nil => simp [mapFind] at h
  | cons x m ih =>
    obtain ⟨k, w⟩ := x
    by_cases hk : k = p
    · have hr : w = r := by simpa [mapFind, hk] using h
      have hm : mapErase ((k, w) :: m) p = mapErase m p := by simp [mapErase, hk]
      have hsub : weightSum (mapErase m p) ≤ weightSum m := by
        rw [mapErase_eq_filter]
        exact List.Sublist.sum_le_sum ((List.filter_sublist m).map Prod.snd)
          (fun _ _ => Nat.zero_le _)
      rw [hm, weightSum_cons, ← hr]
      omega
    · have hm : mapErase ((k, w) :: m) p = (k, w) :: mapErase m p := by
        simp [mapErase, hk]
      have hrest : mapFind m p = some r := by simpa [mapFind, hk] using h
      have := ih hrest
      rw [hm, weightSum_cons, weightSum_cons]
      omega

theorem mapErase_absent (m : List (Nat × Nat)) (p : Nat) (h : p ∉ mapKeys m) :
    mapErase m p = m := by
  induction m with
  | nil => rfl
  | cons x m ih =>
    obtain ⟨k, w⟩ := x
    have hkeys : mapKeys ((k, w) :: m) = k :: mapKeys m := rfl
    rw [hkeys, List.mem_cons, not_or] at h
    have hk : ¬ k = p := fun e => h.1 e.symm
    simp [mapErase, hk, ih h.2]

theorem weightSum_mapErase_nodup (m : List (Nat × Nat)) (p r : Nat)
    (hnd : (mapKeys m).Nodup) (h : mapFind m p = some r) :
    weightSum (mapErase m p) + r = weightSum m := by
  induction m with
  | nil => simp [mapFind] at h
  | cons x m ih =>
    obtain ⟨k, w⟩ := x
    have hkeys : mapKeys ((k, w) :: m) = k :: mapKeys m := rfl
    rw [hkeys, List.nodup_cons] at hnd
    by_cases hk : k = p
    · have hr : w = r := by simpa [mapFind, hk] using h
      have hm : mapErase ((k, w) :: m) p = mapErase m p := by simp [mapErase, hk]
      rw [hm, mapErase_absent m p (hk ▸ hnd.1), weightSum_cons, ← hr]
      omega
    · have hm : mapErase ((k, w) :: m) p = (k, w) :: mapErase m p := by
        simp [mapErase, hk]
      have hrest : mapFind m p = some r := by simpa [mapFind, hk] using h
      have := ih hnd.2 hrest
      rw [hm, weightSum_cons, weightSum_cons]
      omega

theorem countersFit_cons (s : PoissonSampleInterval) (c : Call) (t : List Call)
    (h : countersFit s (c :: t) = true) :
    counterAddFits s c = true ∧ countersFit (s.step c).2 t = true := by
  simpa [countersFit] using h

theorem step_frees_le (s : PoissonSampleInterval) (c : Call)
    (hc : counterAddFits s c = true)
    (hinv : s.frees + weightSum s._allocSize ≤ s.allocs) :
    (s.step c).2.frees + weightSum (s.step c).2._allocSize ≤ (s.step c).2.allocs := by
  cases c with
  | alloc size ptr =>
    show (s.increment size ptr).2.frees + weightSum (s.increment size ptr).2._allocSize ≤
      (s.increment size ptr).2.allocs
    by_cases hgt : size > s._tillNextAlloc
    · have hfit := counterAddFits_alloc s size ptr hc hgt
      rw [increment_of_gt s size ptr hgt]
      show s.frees + weightSum (mapAssign s._allocSize ptr _) ≤ (s.allocs + _) % UINT64_MOD
      rw [Nat.mod_eq_of_lt hfit]
      have := weightSum_mapAssign_le s._allocSize ptr
        ((s._countdownAlloc + (size - s._tillNextAlloc)) % UINT64_MOD)
      omega
    · rw [increment_of_le s size ptr (Nat.not_lt.mp hgt)]
      exact hinv
  | free size ptr =>
    show (s.decrement size ptr).2.frees + weightSum (s.decrement size ptr).2._allocSize ≤
      (s.decrement size ptr).2.allocs
    cases hfind : mapFind s._allocSize ptr with
    | none => rw [decrement_of_none s size ptr hfind]; exact hinv
    | some ret =>
      have hfit := counterAddFits_free s size ptr ret hc hfind
      rw [decrement_of_some s size ptr ret hfind]
      show (s.frees + ret) % UINT64_MOD + weightSum (mapErase s._allocSize ptr) ≤ s.allocs
      rw [Nat.mod_eq_of_lt hfit]
      have := weightSum_mapErase_le s._allocSize ptr ret hfind
      omega

theorem run_frees_le (t : List Call) (s : PoissonSampleInterval)
    (h : countersFit s t = true) (hinv : s.frees + weightSum s._allocSize ≤ s.allocs) :
    (s.run t).frees + weightSum (s.run t)._allocSize ≤ (s.run t).allocs := by
  induction t generalizing s with
  | nil => exact hinv
  | cons c t ih =>
    obtain ⟨hc, ht⟩ := countersFit_cons s c t h
    exact ih (s.step c).2 ht (step_frees_le s c hc hinv)


theorem step_allocs_lt (s : PoissonSampleInterval) (c : Call) (h : s.allocs < UINT64_MOD) :
    (s.step c).2.allocs < UINT64_MOD := by
  cases c with
  | alloc size ptr =>
    show (s.increment size ptr).2.allocs < UINT64_MOD
    by_cases hgt : size > s._tillNextAlloc
    · rw [increment_of_gt s size ptr hgt]
      exact Nat.mod_lt _ (by decide)
    · rw [increment_of_le s size ptr (Nat.not_lt.mp hgt)]
      exact h
  | free size ptr =>
    show (s.decrement size ptr).2.allocs < UINT64_MOD
    cases hfind : mapFind s._allocSize ptr with
    | none => rw [decrement_of_none s size ptr hfind]; exact h
    | some ret => rw [decrement_of_some s size ptr ret hfind]; exact h

theorem run_allocs_lt (t : List Call) (s : PoissonSampleInterval)
    (h : s.allocs < UINT64_MOD) : (s.run t).allocs < UINT64_MOD := by
  induction t generalizing s with
  | nil => exact h
  | cons c t ih => exact ih _ (step_allocs_lt s c h)

/-- C19: in every state reachable from a freshly constructed sampler without 64-bit overflow
of the counters, also when identities are reused while live, `cumulative_freed <=
cumulative_allocated`, so the unsigned difference `allocs - frees` that `increment` and
`decrement` compute for their diagnostic output does not underflow. -/
theorem frees_le_allocs (draws : Nat → Nat) (t : List Call)
    (h : countersFit (new draws) t = true) :
    ((new draws).run t).frees ≤ ((new draws).run t).allocs ∧
      liveMegabytes ((new draws).run t) =
        (((new draws).run t).allocs - ((new draws).run t).frees) / 1048576 := by
  have hinv := run_frees_le t (new draws) h (Nat.le_refl 0)
  have hlt := run_allocs_lt t (new draws) (by decide : (0 : Nat) < UINT64_MOD)
  have hle : ((new draws).run t).frees ≤ ((new draws).run t).allocs :=
    Nat.le_trans (Nat.le_add_right _ _) hinv
  refine ⟨hle, ?_⟩
  unfold liveMegabytes
  have hmod : (((new draws).run t).allocs + UINT64_MOD - ((new draws).run t).frees)
      % UINT64_MOD = ((new draws).run t).allocs - ((new draws).run t).frees := by
    have hswap : ((new draws).run t).allocs + UINT64_MOD - ((new draws).run t).frees =
        (((new draws).run t).allocs - ((new draws).run t).frees) + UINT64_MOD := by omega
    rw [hswap, Nat.add_mod_right]
    exact Nat.mod_eq_of_lt (Nat.lt_of_le_of_lt (Nat.sub_le _ _) hlt)
  rw [hmod]

/-- Witness for C19: identity 7 is sampled twice while live, then freed. -/
theorem frees_le_allocs_witness :
    countersFit (new (fun _ => 100))
        [Call.alloc 101 7, Call.alloc 101 7, Call.free 0 7] = true ∧
      ((new (fun _ => 100)).run [Call.alloc 101 7, Call.alloc 101 7, Call.free 0 7]).frees ≤
        ((new (fun _ => 100)).run [Call.alloc 101 7, Call.alloc 101 7, Call.free 0 7]).allocs :=
  ⟨by decide,
    (frees_le_allocs (fun _ => 100) [Call.alloc 101 7, Call.alloc 101 7, Call.free 0 7]
      (by decide)).1⟩

theorem noLiveResample_alloc (s : PoissonSampleInterval) (size ptr : Nat) (t : List Call)
    (h : noLiveResample s (Call.alloc size ptr :: t) = true) :
    (size ≤ s._tillNextAlloc ∨ mapFind s._allocSize ptr = none) ∧
      noLiveResample (s.increment size ptr).2 t = true := by
  simpa [noLiveResample] using h

theorem run_live_sum (t : List Call) (s : PoissonSampleInterval)
    (hfit : countersFit s t = true) (hfresh : noLiveResample s t = true)
    (hnd : (mapKeys s._allocSize).Nodup)
    (hinv : s.frees + weightSum s._allocSize = s.allocs) :
    (s.run t).frees + weightSum (s.run t)._allocSize = (s.run t).allocs := by
  induction t generalizing s with
  | nil => exact hinv
  | cons c t ih =>
    obtain ⟨hc, ht⟩ := countersFit_cons s c t hfit
    have hnd2 := nodup_step s c hnd
    cases c with
    | alloc size ptr =>
      obtain ⟨habs, hrest⟩ := noLiveResample_alloc s size ptr t hfresh
      refine ih (s.increment size ptr).2 ht hrest hnd2 ?_
      by_cases hgt : size > s._tillNextAlloc
      · have hnone : mapFind s._allocSize ptr = none := by
          rcases habs with h | h
          · exact absurd hgt (Nat.not_lt.mpr h)
          · exact h
        have hcfit := counterAddFits_alloc s size ptr hc hgt
        rw [increment_of_gt s size ptr hgt]
        show s.frees + weightSum (mapAssign s._allocSize ptr _) = (s.allocs + _) % UINT64_MOD
        rw [Nat.mod_eq_of_lt hcfit, weightSum_mapAssign_absent _ _ _ hnone]
        omega
      · rw [increment_of_le s size ptr (Nat.not_lt.mp hgt)]
        exact hinv
    | free size ptr =>
      have hrest : noLiveResample (s.decrement size ptr).2 t = true := hfresh
      refine ih (s.decrement size ptr).2 ht hrest hnd2 ?_
      cases hfind : mapFind s._allocSize ptr with
      | none => rw [decrement_of_none s size ptr hfind]; exact hinv
      | some ret =>
        have hcfit := counterAddFits_free s size ptr ret hc hfind
        rw [decrement_of_some s size ptr ret hfind]
        show (s.frees + ret) % UINT64_MOD + weightSum (mapErase s._allocSize ptr) = s.allocs
        rw [Nat.mod_eq_of_lt hcfit]
        have := weightSum_mapErase_nodup s._allocSize ptr ret hnd hfind
        omega

/-- C16, the live-byte estimate: after any sequence of calls on a freshly constructed
sampler in which no sampled `observe_allocation` is made for an identity that already has an
entry, and which does not overflow a counter, `cumulative_allocated - cumulative_freed` equals
the sum of the weights of the entries currently in the sampled set. -/
theorem live_byte_estimate (draws : Nat → Nat) (t : List Call)
    (hfit : countersFit (new draws) t = true)
    (hfresh : noLiveResample (new draws) t = true) :
    ((new draws).run t).allocs - ((new draws).run t).frees =
        weightSum ((new draws).run t)._allocSize ∧
      ((new draws).run t).frees ≤ ((new draws).run t).allocs := by
  have hsum := run_live_sum t (new draws) hfit hfresh List.nodup_nil rfl
  omega

/-- Witness for C16: two sampled allocations, one of them freed, on the stub 100, 100, ... -/
theorem live_byte_estimate_witness :
    ((new (fun _ => 100)).run
        [Call.alloc 101 1, Call.alloc 50 2, Call.alloc 60 3, Call.free 0 1]).allocs -
        ((new (fun _ => 100)).run
          [Call.alloc 101 1, Call.alloc 50 2, Call.alloc 60 3, Call.free 0 1]).frees = 110 ∧
      weightSum ((new (fun _ => 100)).run
        [Call.alloc 101 1, Call.alloc 50 2, Call.alloc 60 3, Call.free 0 1])._allocSize = 110 :=
  ⟨(live_byte_estimate (fun _ => 100)
      [Call.alloc 101 1, Call.alloc 50 2, Call.alloc 60 3, Call.free 0 1]
      (by decide) (by decide)).1.trans (by decide),
    by decide⟩


/-! ## The sum of the sampled weights as an estimator -/

theorem single_alloc_allocs (draws : Nat → Nat) (ptr : Nat) :
    ((new draws).run [Call.alloc 1 ptr]).allocs =
      if draws 0 % UINT64_MOD = 0 then 1 else 0 := by
  show ((new draws).increment 1 ptr).2.allocs = _
  by_cases h0 : draws 0 % UINT64_MOD = 0
  · have hgt : 1 > (new draws)._tillNextAlloc := by
      rw [(new_fields draws).1, h0]; exact Nat.one_pos
    rw [increment_of_gt _ 1 ptr hgt, if_pos h0]
    show ((new draws).allocs + ((new draws)._countdownAlloc +
      (1 - (new draws)._tillNextAlloc)) % UINT64_MOD) % UINT64_MOD = 1
    rw [(new_fields draws).1, (new_fields draws).2.1, (new_fields draws).2.2.1, h0]
    decide
  · have hle : 1 ≤ (new draws)._tillNextAlloc := by
      rw [(new_fields draws).1]; exact Nat.one_le_iff_ne_zero.mpr h0
    rw [increment_of_le _ 1 ptr hle, if_neg h0]
    rfl

theorem geometricMass_two (k : Nat) :
    ((geometricMass 2 k : ℚ) : ℝ) = (1 / 2) * ((1 : ℝ) / 2) ^ k := by
  unfold geometricMass
  push_cast
  norm_num

theorem tsum_half_geometric_lt :
    tsum (fun k : ℕ => ((geometricMass 2 k : ℚ) : ℝ) *
      (((if k % UINT64_MOD = 0 then 1 else 0 : ℕ) : ℝ))) < 1 := by
  have hmass : Summable (fun k : ℕ => (1 / 2 : ℝ) * ((1 : ℝ) / 2) ^ k) :=
    summable_geometric_two.mul_left _
  have hmass1 : tsum (fun k : ℕ => (1 / 2 : ℝ) * ((1 : ℝ) / 2) ^ k) = 1 := by
    rw [tsum_mul_left, tsum_geometric_two]; norm_num
  have hspike : Summable (fun k : ℕ => if k = 1 then (1 / 4 : ℝ) else 0) :=
    (hasSum_ite_eq 1 (1 / 4 : ℝ)).summable
  have hspike1 : tsum (fun k : ℕ => if k = 1 then (1 / 4 : ℝ) else 0) = 1 / 4 :=
    tsum_ite_eq 1 (1 / 4 : ℝ)
  have hpow : ∀ k : ℕ, (0 : ℝ) ≤ (1 / 2) * ((1 : ℝ) / 2) ^ k := fun k => by positivity
  have hbound : ∀ k : ℕ, ((geometricMass 2 k : ℚ) : ℝ) *
      (((if k % UINT64_MOD = 0 then 1 else 0 : ℕ) : ℝ)) ≤
      (1 / 2 : ℝ) * ((1 : ℝ) / 2) ^ k - (if k = 1 then (1 / 4 : ℝ) else 0) := by
    intro k
    rw [geometricMass_two]
    by_cases h1 : k = 1
    · subst h1
      have : ¬ (1 % UINT64_MOD = 0) := by decide
      simp only [this, if_false, if_true]
      norm_num
    · simp only [h1, if_false, sub_zero]
      by_cases h0 : k % UINT64_MOD = 0
      · simp [h0]
      · simp only [h0, if_false, Nat.cast_zero, mul_zero]
        exact hpow k
  have hnonneg : ∀ k : ℕ, 0 ≤ ((geometricMass 2 k : ℚ) : ℝ) *
      (((if k % UINT64_MOD = 0 then 1 else 0 : ℕ) : ℝ)) := by
    intro k
    rw [geometricMass_two]
    exact mul_nonneg (hpow k) (Nat.cast_nonneg _)
  have hle_mass : ∀ k : ℕ, ((geometricMass 2 k : ℚ) : ℝ) *
      (((if k % UINT64_MOD = 0 then 1 else 0 : ℕ) : ℝ)) ≤ (1 / 2 : ℝ) * ((1 : ℝ) / 2) ^ k := by
    intro k
    refine le_trans (hbound k) ?_
    have : (0 : ℝ) ≤ if k = 1 then (1 / 4 : ℝ) else 0 := by split_ifs <;> norm_num
    linarith
  have hsum := Summable.of_nonneg_of_le hnonneg hle_mass hmass
  have hlt := tsum_le_tsum hbound hsum (hmass.sub hspike)
  rw [tsum_sub hmass hspike, hmass1, hspike1] at hlt
  linarith


theorem allocatedBytes_observeAllocations (pairs : List (Nat × Nat)) :
    allocatedBytes (observeAllocations pairs) = (pairs.map Prod.fst).sum := by
  induction pairs with
  | nil => rfl
  | cons p pairs ih =>
    show p.1 + allocatedBytes (observeAllocations pairs) = _
    rw [ih]
    simp

/-- C13, as amended: for every finite sequence of `observe_allocation` calls on a fresh
sampler and every sequence of draws, without 64-bit overflow, `cumulative_allocated` plus the
bytes observed since the last sampling event (`last_draw - remaining_bytes`) equals the sum of
the `size_bytes` arguments of all the calls; so the sum of all sampled weights never exceeds
the total bytes allocated. -/
theorem allocs_is_lower_estimate (draws : Nat → Nat) (pairs : List (Nat × Nat))
    (h : noOverflow (new draws) (observeAllocations pairs) = true) :
    ((new draws).run (observeAllocations pairs)).allocs +
        (((new draws).run (observeAllocations pairs))._countdownAlloc -
          ((new draws).run (observeAllocations pairs))._tillNextAlloc) =
        (pairs.map Prod.fst).sum ∧
      ((new draws).run (observeAllocations pairs)).allocs ≤ (pairs.map Prod.fst).sum := by
  have hacc := run_accounting (observeAllocations pairs) (new draws) (Nat.le_refl _) h
  rw [allocatedBytes_observeAllocations] at hacc
  have hzero : (new draws).allocs + ((new draws)._countdownAlloc -
      (new draws)._tillNextAlloc) = 0 := by
    show 0 + (draws 0 % UINT64_MOD - draws 0 % UINT64_MOD) = 0
    omega
  rw [hzero, Nat.zero_add] at hacc
  exact ⟨hacc, hacc ▸ Nat.le_add_right _ _⟩

/-- Witness for C13: 50, 60 and 3 bytes on the stub 100, 100, ...: 110 bytes are attributed
and 3 are pending, out of 113. -/
theorem allocs_is_lower_estimate_witness :
    noOverflow (new (fun _ => 100)) (observeAllocations [(50, 1), (60, 2), (3, 3)]) = true ∧
      ((new (fun _ => 100)).run (observeAllocations [(50, 1), (60, 2), (3, 3)])).allocs =
        110 ∧
      ((new (fun _ => 100)).run (observeAllocations [(50, 1), (60, 2), (3, 3)])).allocs ≤
        ([(50, 1), (60, 2), (3, 3)].map Prod.fst).sum :=
  ⟨by decide, by decide,
    (allocs_is_lower_estimate (fun _ => 100) [(50, 1), (60, 2), (3, 3)] (by decide)).2⟩

/-- C13 fails as stated: for the single call `observe_allocation(1, 7)` on a fresh sampler
with `sample_interval_bytes = 2`, `cumulative_allocated` afterwards depends on the first draw
only (it is 1 when that draw is 0 and 0 when the draw is any other 64-bit value), so its
expectation over the geometric draws is the series below; that expectation is less than the
one byte allocated. -/
theorem expected_allocs_below_total :
    (∀ draws : ℕ → ℕ, ((new draws).run (observeAllocations [(1, 7)])).allocs =
        ((new (fun _ => draws 0)).run (observeAllocations [(1, 7)])).allocs) ∧
      tsum (fun k : ℕ => ((geometricMass 2 k : ℚ) : ℝ) *
        ((((new (fun _ => k)).run (observeAllocations [(1, 7)])).allocs : ℕ) : ℝ)) <
        (((([(1, 7)] : List (ℕ × ℕ)).map Prod.fst).sum : ℕ) : ℝ) := by
  have hone : ∀ draws : ℕ → ℕ, ((new draws).run (observeAllocations [(1, 7)])).allocs =
      if draws 0 % UINT64_MOD = 0 then 1 else 0 := fun draws => single_alloc_allocs draws 7
  refine ⟨fun draws => by rw [hone draws, hone (fun _ => draws 0)], ?_⟩
  have hfun : (fun k : ℕ => ((geometricMass 2 k : ℚ) : ℝ) *
      ((((new (fun _ => k)).run (observeAllocations [(1, 7)])).allocs : ℕ) : ℝ)) =
      (fun k : ℕ => ((geometricMass 2 k : ℚ) : ℝ) *
        (((if k % UINT64_MOD = 0 then 1 else 0 : ℕ) : ℝ))) := by
    funext k
    rw [hone (fun _ => k)]
  rw [hfun]
  have hlt := tsum_half_geometric_lt
  have htotal : (((([(1, 7)] : List (ℕ × ℕ)).map Prod.fst).sum : ℕ) : ℝ) = 1 := by norm_num
  rw [htotal]
  exact hlt


end PoissonSampleInterval
